import Mathlib

/-!
Verification of the AliceVision dense depth-map subsystem
(tile merge & persistence layer, SGM similarity engine, refinement engine,
normal-map kernel) against its natural-language specification.

The C++ sources are shallowly embedded:
  * images (`image::Image<float>`) become `ImgQ`: integer dimensions plus a
    total pixel function `ℤ → ℤ → ℚ` accessed as `at_ y x` (row, column),
    matching the source's `map(y, x)` accessor;
  * `float`/`double` arithmetic is modelled by exact rational arithmetic;
  * fallible code (`ALICEVISION_THROW_ERROR`, exceptions from image reads)
    returns `Except MergeError`;
  * camera geometry that involves square roots (3D point projection, vector
    norms) is abstracted by an explicit oracle record, and device kernels
    whose bodies are outside this repository snapshot are abstract
    state-transformers, each marked `Modelled from the spec:` below.
-/

namespace AV

/-! ## Region / tile model (`ROI`, `Range`, `TileParams`)

`Modelled from the spec:` the `Range`/`ROI` structs and the helpers
`downscaleROI`, `intersect`, `isEmpty`, `divideRoundUp` live in
`mvsData/ROI.hpp` and numeric headers that are not part of this snapshot
(only their users are).  They are modelled from the spec's data model:
a `ROI` is a rectangular pixel-coordinate subregion given by begin/end
ranges on each axis; `downscaleROI` divides the bounds by the downscale
factor (begin rounded down, end rounded up); `intersect` clips to the
image; `divideRoundUp` is ceiling division. -/

structure Range where
  rbegin : ℤ
  rend : ℤ
deriving DecidableEq, Repr

def Range.width (r : Range) : ℤ := r.rend - r.rbegin

structure ROI where
  x : Range
  y : Range
deriving DecidableEq, Repr

def ROI.width (r : ROI) : ℤ := r.x.width
def ROI.height (r : ROI) : ℤ := r.y.width

def ROI.isEmpty (r : ROI) : Prop := r.x.rend ≤ r.x.rbegin ∨ r.y.rend ≤ r.y.rbegin

instance (r : ROI) : Decidable r.isEmpty := by unfold ROI.isEmpty; infer_instance

def divideRoundUp (x d : ℤ) : ℤ := (x + d - 1) / d

def downscaleROI (roi : ROI) (downscale : ℤ) : ROI :=
  ⟨⟨roi.x.rbegin / downscale, divideRoundUp roi.x.rend downscale⟩,
   ⟨roi.y.rbegin / downscale, divideRoundUp roi.y.rend downscale⟩⟩

def intersect (a b : ROI) : ROI :=
  ⟨⟨max a.x.rbegin b.x.rbegin, min a.x.rend b.x.rend⟩,
   ⟨max a.y.rbegin b.y.rbegin, min a.y.rend b.y.rend⟩⟩

/-- Tile workflow parameters (buffer dimensions and padding), as carried in
tile file metadata (`mvsUtils/TileParams.hpp`, fields read back in
`getTileParamsFromMetadata`). -/
structure TileParams where
  bufferWidth : ℤ
  bufferHeight : ℤ
  padding : ℤ
deriving DecidableEq, Repr

/-- `Modelled from the spec:` the default-constructed `TileParams` used by
`readMapFromTiles` before metadata is applied (tile configuration consumed
from outside the core; the header with the default member initializers is
not in this snapshot). -/
def defaultTileParams : TileParams := ⟨1024, 1024, 128⟩

/-! ## Image model -/

/-- A CPU image of rationals: `image::Image<float>` with `Width()`, `Height()`
and operator `(y, x)`.  The pixel function is total; dimensions are carried
alongside. -/
structure ImgQ where
  w : ℤ
  h : ℤ
  at_ : ℤ → ℤ → ℚ

/-- Constant image (used to embed tiles of a constant map). -/
def constImg (w h : ℤ) (v : ℚ) : ImgQ := ⟨w, h, fun _ _ => v⟩

/-- The zero-filled image produced by `out_map.resize(width, height, true, 0.f)`. -/
def zeroImg (w h : ℤ) : ImgQ := constImg w h 0

/-! ## `weightTileBorder` (depthSimMapIO.cpp, lines 132-166) -/

/-- `clamp` from the numeric helpers: clip `v` into `[lo, hi]`. -/
def clamp (v lo hi : ℚ) : ℚ := min (max v lo) hi

/-- The bilinear interpolation weight computed inside the double loop of
`weightTileBorder` at pixel `(x, y)` of the tile map: corner alphas
`a` (top-left), `b` (top-right), `c` (bottom-right), `d` (bottom-left),
intersection-area size `borderWidth × borderHeight`, left-up corner `lu`,
with the fixed `margin = 2` shrinking the interpolation frame. -/
def weightTileBorderWeight (a b c d borderWidth borderHeight lux luy x y : ℤ) : ℚ :=
  let margin : ℚ := 2
  let lumx : ℚ := (lux : ℚ) + margin
  let lumy : ℚ := (luy : ℚ) + margin
  let rdmx : ℚ := ((lux + borderWidth : ℤ) : ℚ) - margin
  let rdmy : ℚ := ((luy + borderHeight : ℤ) : ℚ) - margin
  let borderWidthM : ℚ := (borderWidth : ℚ) - 2 * margin
  let borderHeightM : ℚ := (borderHeight : ℚ) - 2 * margin
  let rX : ℚ := clamp ((rdmx - (x : ℚ)) / borderWidthM) 0 1
  let rY : ℚ := clamp ((rdmy - (y : ℚ)) / borderHeightM) 0 1
  let lX : ℚ := clamp (((x : ℚ) - lumx) / borderWidthM) 0 1
  let lY : ℚ := clamp (((y : ℚ) - lumy) / borderHeightM) 0 1
  rY * (rX * (a : ℚ) + lX * (b : ℚ)) + lY * (rX * (d : ℚ) + lX * (c : ℚ))

/-- The pixel range that the double loop of `weightTileBorder` touches:
`lu.x ≤ x < min(lu.x + borderWidth, map width)` and likewise for `y`. -/
def inTileBorder (borderWidth borderHeight lux luy mw mh x y : ℤ) : Prop :=
  lux ≤ x ∧ x < min (lux + borderWidth) mw ∧ luy ≤ y ∧ y < min (luy + borderHeight) mh

instance (bw bh lux luy mw mh x y : ℤ) : Decidable (inTileBorder bw bh lux luy mw mh x y) := by
  unfold inTileBorder; infer_instance

/-- `weightTileBorder`: multiply every pixel of the intersection area by its
bilinear weight (`in_tileMap(y, x) *= weight`); pixels outside the area are
untouched. -/
def weightTileBorder (a b c d borderWidth borderHeight lux luy : ℤ) (m : ImgQ) : ImgQ :=
  { m with
    at_ := fun y x =>
      if inTileBorder borderWidth borderHeight lux luy m.w m.h x y then
        m.at_ y x * weightTileBorderWeight a b c d borderWidth borderHeight lux luy x y
      else m.at_ y x }

/-! ## `addTileMapWeighted` (depthSimMapIO.cpp, lines 168-265) -/

/-- The eight conditional `weightTileBorder` calls of `addTileMapWeighted`,
in source order (top-left, bottom-left, top-right, bottom-right corners,
then top, bottom, left, right borders), driven by the four tile-position
flags and the downscaled tile size `tileWidth × tileHeight` and padding. -/
def applyTileWeights (firstColumn lastColumn firstRow lastRow : Bool)
    (tileWidth tileHeight tilePadding : ℤ) (m : ImgQ) : ImgQ :=
  let m1 := if ¬firstColumn ∨ ¬firstRow then
      weightTileBorder 0 (if firstRow then 1 else 0) 1 (if firstColumn then 1 else 0)
        tilePadding tilePadding 0 0 m
    else m
  let m2 := if ¬firstColumn ∨ ¬lastRow then
      weightTileBorder (if firstColumn then 1 else 0) 1 (if lastRow then 1 else 0) 0
        tilePadding tilePadding 0 (tileHeight - tilePadding) m1
    else m1
  let m3 := if ¬lastColumn ∨ ¬firstRow then
      weightTileBorder (if firstRow then 1 else 0) 0 (if lastColumn then 1 else 0) 1
        tilePadding tilePadding (tileWidth - tilePadding) 0 m2
    else m2
  let m4 := if ¬lastColumn ∨ ¬lastRow then
      weightTileBorder 1 (if lastColumn then 1 else 0) 0 (if lastRow then 1 else 0)
        tilePadding tilePadding (tileWidth - tilePadding) (tileHeight - tilePadding) m3
    else m3
  let m5 := if ¬firstRow then
      weightTileBorder 0 0 1 1 (tileWidth - 2 * tilePadding) tilePadding tilePadding 0 m4
    else m4
  let m6 := if ¬lastRow then
      weightTileBorder 1 1 0 0 (tileWidth - 2 * tilePadding) tilePadding
        tilePadding (tileHeight - tilePadding) m5
    else m5
  let m7 := if ¬firstColumn then
      weightTileBorder 0 1 1 0 tilePadding (tileHeight - 2 * tilePadding) 0 tilePadding m6
    else m6
  let m8 := if ¬lastColumn then
      weightTileBorder 1 0 0 1 tilePadding (tileHeight - 2 * tilePadding)
        (tileWidth - tilePadding) tilePadding m7
    else m7
  m8

/-- `addTileMapWeighted`: weight the borders of the tile map according to the
tile position inside the image of full-resolution size `imageWidth ×
imageHeight` (flags compare the undownscaled ROI against the image bounds),
then add the weighted tile into `inout_map` over the downscaled ROI. -/
def addTileMapWeighted (imageWidth imageHeight : ℤ) (tileParams : TileParams)
    (roi : ROI) (downscale : ℤ) (inTileMap : ImgQ) (inoutMap : ImgQ) : ImgQ :=
  let downscaledRoi := downscaleROI roi downscale
  let tileWidth := downscaledRoi.width
  let tileHeight := downscaledRoi.height
  let tilePadding := tileParams.padding / downscale
  let firstColumn : Bool := roi.x.rbegin = 0
  let lastColumn : Bool := roi.x.rend = imageWidth
  let firstRow : Bool := roi.y.rbegin = 0
  let lastRow : Bool := roi.y.rend = imageHeight
  let weighted := applyTileWeights firstColumn lastColumn firstRow lastRow
    tileWidth tileHeight tilePadding inTileMap
  { inoutMap with
    at_ := fun y x =>
      if downscaledRoi.x.rbegin ≤ x ∧ x < downscaledRoi.x.rend ∧
         downscaledRoi.y.rbegin ≤ y ∧ y < downscaledRoi.y.rend then
        inoutMap.at_ y x + weighted.at_ (y - downscaledRoi.y.rbegin) (x - downscaledRoi.x.rbegin)
      else inoutMap.at_ y x }

/-! ## Tile decompositions and the merge of a constant map

`Modelled from the spec:` the tile list itself is produced by the tile
decomposition helper (not in this snapshot); per the spec's data model a
decomposition is a grid of ROIs — a list of column ranges times a list of
row ranges — in which consecutive tiles overlap by exactly the padding
amount, the first range begins at 0 and the last ends at the image bound. -/

/-- The grid of tile ROIs spanned by column ranges and row ranges. -/
def tileGrid (cols rows : List Range) : List ROI :=
  cols.flatMap (fun c => rows.map (fun r => ⟨c, r⟩))

/-- Chain of ranges covering `[b, W)`: consecutive ranges overlap by exactly
`padding`, every range is wider than `2 * padding`, the last one ends at `W`. -/
inductive RangeChain (padding W : ℤ) : ℤ → List Range → Prop
  | single (b : ℤ) : 2 * padding < W - b → RangeChain padding W b [⟨b, W⟩]
  | cons (b e : ℤ) (rest : List Range) : 2 * padding < e - b → e < W →
      RangeChain padding W (e - padding) rest → RangeChain padding W b (⟨b, e⟩ :: rest)

/-- Merge a decomposition of tiles, each holding the constant map `v`, into a
zero-initialized full map via `addTileMapWeighted` (downscale 1), as
`readMapFromTiles` does.  The resulting pixel values are exactly the sums of
the blending weights (times `v`). -/
def mergeConstTiles (imageWidth imageHeight : ℤ) (tileParams : TileParams) (v : ℚ)
    (cols rows : List Range) : ImgQ :=
  (tileGrid cols rows).foldl
    (fun out roi =>
      addTileMapWeighted imageWidth imageHeight tileParams roi 1
        (constImg roi.width roi.height v) out)
    (zeroImg imageWidth imageHeight)

/-! ## Analysis helpers for the blending law (proof-side definitions) -/

/-- One axis' blending factor of a tile: ramp up over the first `padding`
pixels unless the tile is first on that axis, ramp down over the last
`padding` pixels unless it is last, weight 1 in between (margin 2 as in
`weightTileBorder`). -/
def sideWeight (isFirst isLast : Bool) (len padding : ℤ) (t : ℤ) : ℚ :=
  if isFirst = false ∧ t < padding then
    clamp (((t : ℚ) - 2) / ((padding : ℚ) - 4)) 0 1
  else if isLast = false ∧ len - padding ≤ t then
    clamp ((((len : ℚ) - 2) - (t : ℚ)) / ((padding : ℚ) - 4)) 0 1
  else 1

/-- The total multiplicative weight that the eight conditional
`weightTileBorder` calls of `addTileMapWeighted` apply to pixel `(x, y)` of a
tile map with dimensions `mw × mh` (each factor is 1 when the call is skipped
or the pixel lies outside its intersection area). -/
def tileFactor (firstColumn lastColumn firstRow lastRow : Bool)
    (tileWidth tileHeight tilePadding mw mh : ℤ) (x y : ℤ) : ℚ :=
  (if (¬firstColumn ∨ ¬firstRow) ∧ inTileBorder tilePadding tilePadding 0 0 mw mh x y then
     weightTileBorderWeight 0 (if firstRow then 1 else 0) 1 (if firstColumn then 1 else 0)
       tilePadding tilePadding 0 0 x y else 1) *
  (if (¬firstColumn ∨ ¬lastRow) ∧
      inTileBorder tilePadding tilePadding 0 (tileHeight - tilePadding) mw mh x y then
     weightTileBorderWeight (if firstColumn then 1 else 0) 1 (if lastRow then 1 else 0) 0
       tilePadding tilePadding 0 (tileHeight - tilePadding) x y else 1) *
  (if (¬lastColumn ∨ ¬firstRow) ∧
      inTileBorder tilePadding tilePadding (tileWidth - tilePadding) 0 mw mh x y then
     weightTileBorderWeight (if firstRow then 1 else 0) 0 (if lastColumn then 1 else 0) 1
       tilePadding tilePadding (tileWidth - tilePadding) 0 x y else 1) *
  (if (¬lastColumn ∨ ¬lastRow) ∧
      inTileBorder tilePadding tilePadding (tileWidth - tilePadding) (tileHeight - tilePadding)
        mw mh x y then
     weightTileBorderWeight 1 (if lastColumn then 1 else 0) 0 (if lastRow then 1 else 0)
       tilePadding tilePadding (tileWidth - tilePadding) (tileHeight - tilePadding) x y else 1) *
  (if ¬firstRow ∧ inTileBorder (tileWidth - 2 * tilePadding) tilePadding tilePadding 0 mw mh x y then
     weightTileBorderWeight 0 0 1 1 (tileWidth - 2 * tilePadding) tilePadding tilePadding 0 x y
   else 1) *
  (if ¬lastRow ∧ inTileBorder (tileWidth - 2 * tilePadding) tilePadding tilePadding
      (tileHeight - tilePadding) mw mh x y then
     weightTileBorderWeight 1 1 0 0 (tileWidth - 2 * tilePadding) tilePadding tilePadding
       (tileHeight - tilePadding) x y else 1) *
  (if ¬firstColumn ∧ inTileBorder tilePadding (tileHeight - 2 * tilePadding) 0 tilePadding
      mw mh x y then
     weightTileBorderWeight 0 1 1 0 tilePadding (tileHeight - 2 * tilePadding) 0 tilePadding x y
   else 1) *
  (if ¬lastColumn ∧ inTileBorder tilePadding (tileHeight - 2 * tilePadding)
      (tileWidth - tilePadding) tilePadding mw mh x y then
     weightTileBorderWeight 1 0 0 1 tilePadding (tileHeight - 2 * tilePadding)
       (tileWidth - tilePadding) tilePadding x y else 1)

/-- One axis' weighted coverage of a pixel by a list of ranges: the sum, over
the ranges containing the pixel, of that range's blending factor. -/
def chainWeightSum (p W : ℤ) (rs : List Range) (x : ℤ) : ℚ :=
  (rs.map (fun r => if r.rbegin ≤ x ∧ x < r.rend then
     sideWeight (decide (r.rbegin = 0)) (decide (r.rend = W)) r.width p (x - r.rbegin)
   else 0)).sum

/-! ## Tile files and `readMapFromTiles` (depthSimMapIO.cpp, lines 267-330) -/

/-- The metadata entries a tile map file may carry (a field is `none` when the
entry is absent or not of integer type, in which case the reader keeps the
default-initialized value). -/
structure TileFileMeta where
  roiBeginX : Option ℤ := none
  roiBeginY : Option ℤ := none
  roiEndX : Option ℤ := none
  roiEndY : Option ℤ := none
  bufferWidth : Option ℤ := none
  bufferHeight : Option ℤ := none
  padding : Option ℤ := none
  nbDepthValues : Option ℤ := none

/-- A tile map file: its metadata plus its pixel content; `content = none`
models a file whose pixel data cannot be read (missing or corrupt), so that
`image::readImage` throws. -/
structure TileFile where
  meta : TileFileMeta
  content : Option ImgQ

/-- Error raised by `ALICEVISION_THROW_ERROR`. -/
inductive MergeError
  | configError
deriving DecidableEq, Repr

/-- `getRoiFromMetadata` (lines 27-53): fill the default-initialized ROI from
the present integer metadata entries, then throw if the result is invalid
(`begin < 0` or `end ≤ 0` on either axis). -/
def getRoiFromMetadata (meta : TileFileMeta) : Except MergeError ROI :=
  let roi : ROI := ⟨⟨meta.roiBeginX.getD 0, meta.roiEndX.getD 0⟩,
                   ⟨meta.roiBeginY.getD 0, meta.roiEndY.getD 0⟩⟩
  if roi.x.rbegin < 0 ∨ roi.y.rbegin < 0 ∨ roi.x.rend ≤ 0 ∨ roi.y.rend ≤ 0 then
    Except.error MergeError.configError
  else Except.ok roi

/-- `getTileParamsFromMetadata` (lines 60-82): fill the default `TileParams`
from present integer metadata entries, then throw if invalid
(`bufferWidth ≤ 0`, `bufferHeight ≤ 0` or `padding < 0`). -/
def getTileParamsFromMetadata (meta : TileFileMeta) : Except MergeError TileParams :=
  let tp : TileParams := ⟨meta.bufferWidth.getD defaultTileParams.bufferWidth,
                          meta.bufferHeight.getD defaultTileParams.bufferHeight,
                          meta.padding.getD defaultTileParams.padding⟩
  if tp.bufferWidth ≤ 0 ∨ tp.bufferHeight ≤ 0 ∨ tp.padding < 0 then
    Except.error MergeError.configError
  else Except.ok tp

/-- The ROI-gathering loop of `readMapFromTiles` (lines 300-305): read every
tile's ROI from metadata; the first failure propagates (it is not inside the
`try` block). -/
def getRoisFromTiles : List TileFile → Except MergeError (List ROI)
  | [] => Except.ok []
  | f :: fs =>
    match getRoiFromMetadata f.meta with
    | Except.error e => Except.error e
    | Except.ok roi =>
      match getRoisFromTiles fs with
      | Except.error e => Except.error e
      | Except.ok rois => Except.ok (roi :: rois)

/-- `readMapFromTiles` (lines 267-330): resize the output to the downscaled
image dimensions filled with 0, return it directly if no tile file matches,
otherwise read tile params from the first file, every ROI from metadata,
then accumulate each readable tile with `addTileMapWeighted`; a tile whose
pixel content cannot be read is skipped (the `try`/`catch` logs a warning),
as is a tile whose ROI does not intersect the image. -/
def readMapFromTiles (imageWidth imageHeight scale step : ℤ) (files : List TileFile) :
    Except MergeError ImgQ :=
  let imageRoi : ROI := ⟨⟨0, imageWidth⟩, ⟨0, imageHeight⟩⟩
  let scaleStep := max scale 1 * step
  let width := divideRoundUp imageWidth scaleStep
  let height := divideRoundUp imageHeight scaleStep
  let out0 := zeroImg width height
  match files with
  | [] => Except.ok out0
  | f0 :: _ =>
    match getTileParamsFromMetadata f0.meta with
    | Except.error e => Except.error e
    | Except.ok tileParams =>
      match getRoisFromTiles files with
      | Except.error e => Except.error e
      | Except.ok tileRoiList =>
        Except.ok ((tileRoiList.zip files).foldl
          (fun out pr =>
            let roi := intersect pr.1 imageRoi
            if roi.isEmpty then out
            else
              match pr.2.content with
              | none => out
              | some tileMap => addTileMapWeighted imageWidth imageHeight tileParams roi
                  scaleStep tileMap out)
          out0)

/-- Direct description of the accumulation: keep only the tiles whose content
is readable and whose ROI meets the image, and fold them in order (used to
state what `readMapFromTiles` computes when all metadata is valid). -/
def mergeReadableTiles (imageWidth imageHeight scaleStep : ℤ) (tileParams : TileParams)
    (out0 : ImgQ) (pairs : List (ROI × TileFile)) : ImgQ :=
  (pairs.filterMap (fun pr =>
      let roi := intersect pr.1 ⟨⟨0, imageWidth⟩, ⟨0, imageHeight⟩⟩
      if roi.isEmpty then none
      else match pr.2.content with
        | none => none
        | some tileMap => some (roi, tileMap))).foldl
    (fun out rm => addTileMapWeighted imageWidth imageHeight tileParams rm.1 scaleStep rm.2 out)
    out0

/-- `readDepthSimMap` (lines 500-521): if both full-size files exist they are
read directly (untiled fast path), otherwise both maps are reassembled from
tiles. -/
def readDepthSimMap (imageWidth imageHeight scale step : ℤ)
    (fullDepth fullSim : Option ImgQ) (depthTiles simTiles : List TileFile) :
    Except MergeError (ImgQ × ImgQ) :=
  match fullDepth, fullSim with
  | some dm, some sm => Except.ok (dm, sm)
  | _, _ =>
    match readMapFromTiles imageWidth imageHeight scale step depthTiles with
    | Except.error e => Except.error e
    | Except.ok dm =>
      match readMapFromTiles imageWidth imageHeight scale step simTiles with
      | Except.error e => Except.error e
      | Except.ok sm => Except.ok (dm, sm)

/-- `readDepthMap` (lines 523-540): read the full-size depth map if present,
otherwise merge from tiles. -/
def readDepthMap (imageWidth imageHeight scale step : ℤ) (fullDepth : Option ImgQ)
    (tiles : List TileFile) : Except MergeError ImgQ :=
  match fullDepth with
  | some m => Except.ok m
  | none => readMapFromTiles imageWidth imageHeight scale step tiles

/-- A full-size tile file carrying the whole image as its ROI with valid
metadata (the single-tile input of the merge path compared against the
untiled fast path). -/
def fullSizeTileFile (imageWidth imageHeight padding : ℤ) (m : ImgQ) : TileFile :=
  { meta := { roiBeginX := some 0, roiBeginY := some 0,
              roiEndX := some imageWidth, roiEndY := some imageHeight,
              bufferWidth := some imageWidth, bufferHeight := some imageHeight,
              padding := some padding },
    content := some m }

/-! ## `getNbDepthValuesFromDepthMap` (depthSimMapIO.cpp, lines 561-610) -/

/-- Number of pixels with value strictly greater than 0 (the recomputation
fallback `count_if(v > 0.0f)`). -/
def countPositive (m : ImgQ) : ℤ :=
  ((List.range m.h.toNat).map (fun y =>
    ((List.range m.w.toNat).filter (fun x => decide (0 < m.at_ (y : ℤ) (x : ℤ)))).length)).sum

/-- The tiled accumulation loop: starting from the running value `acc`
(initialized to -1 by the caller), add each tile's `nbDepthValues` metadata,
throwing when an entry is absent or negative (`get_int(..., -1) < 0`). -/
def sumTileNbDepthValues (acc : ℤ) : List TileFile → Except MergeError ℤ
  | [] => Except.ok acc
  | f :: fs =>
    let nbTile := f.meta.nbDepthValues.getD (-1)
    if nbTile < 0 then Except.error MergeError.configError
    else sumTileNbDepthValues (acc + nbTile) fs

/-- `getNbDepthValuesFromDepthMap`: with an untiled file, take its
`nbDepthValues` metadata (default -1); otherwise accumulate tile metadata
into a counter initialized to -1; if the result is still negative, recompute
by reading the map and counting pixels with depth > 0.
`fullDepthFile` carries the untiled file's metadata and content when the
full-size file exists. -/
def getNbDepthValuesFromDepthMap (imageWidth imageHeight scale step : ℤ)
    (fullDepthFile : Option (Option ℤ × ImgQ)) (tiles : List TileFile) :
    Except MergeError ℤ :=
  let fromMeta : Except MergeError ℤ :=
    match fullDepthFile with
    | some fl => Except.ok (fl.1.getD (-1))
    | none => sumTileNbDepthValues (-1) tiles
  match fromMeta with
  | Except.error e => Except.error e
  | Except.ok nbDepthValues =>
    if nbDepthValues < 0 then
      match readDepthMap imageWidth imageHeight scale step (fullDepthFile.map Prod.snd) tiles with
      | Except.error e => Except.error e
      | Except.ok depthMap => Except.ok (countPositive depthMap)
    else Except.ok nbDepthValues

/-! ## `writeDepthSimMap` statistics metadata (depthSimMapIO.cpp, lines 424-444) -/

/-- `std::numeric_limits<float>::max()`, the initial value of `minDepth`. -/
def floatMax : ℚ := 2 ^ 128 - 2 ^ 104

/-- The min/max/count metadata block of `writeDepthSimMap` over the depth
buffer traversed in linear order: `nbDepthValues` counts pixels with depth
strictly greater than 0; the min/max fold skips pixels with depth ≤ -1 and
folds the rest from `maxDepth = -1`, `minDepth = floatMax`.
Result: `(nbDepthValues, minDepth, maxDepth)`. -/
def writeDepthSimMapStats (depths : List ℚ) : ℤ × ℚ × ℚ :=
  let nbDepthValues : ℤ := (depths.filter (fun v => decide (0 < v))).length
  let mm : ℚ × ℚ := depths.foldl
    (fun mm depth => if depth ≤ -1 then mm else (max mm.1 depth, min mm.2 depth))
    (-1, floatMax)
  (nbDepthValues, mm.2, mm.1)

/-! ## Normal-map kernel (deviceNormalMapKernels.cuh)

The camera geometry (`get3DPointForPixelAndDepthFromRC`, `size`, `normalize`)
and the PCA plane fit (`eig33.cuh`) involve square roots, so they are carried
as an explicit oracle record; the kernel's control flow and the
neighbor-inclusion test (line 77) are embedded literally. -/

structure Vec3 where
  x : ℚ
  y : ℚ
  z : ℚ
deriving DecidableEq, Repr

def Vec3.sub (a b : Vec3) : Vec3 := ⟨a.x - b.x, a.y - b.y, a.z - b.z⟩
def Vec3.add (a b : Vec3) : Vec3 := ⟨a.x + b.x, a.y + b.y, a.z + b.z⟩
def Vec3.neg (a : Vec3) : Vec3 := ⟨-a.x, -a.y, -a.z⟩
def Vec3.dot (a b : Vec3) : ℚ := a.x * b.x + a.y * b.y + a.z * b.z

/-- The sentinel normal `make_float3(-1.f, -1.f, -1.f)`. -/
def sentinelNormal : Vec3 := ⟨-1, -1, -1⟩

/-- Camera-dependent operations of the normal-map kernel, abstracted:
`p3 x y depth` is `get3DPointForPixelAndDepthFromRC` at pixel `(x, y)`;
`sizeV` is the Euclidean norm `size`; `planePCA` is
`cuda_stat3d::computePlaneByPCA` over the accumulated weighted samples
(returning the fitted point and normal, or `none` on failure);
`normalizeV` is `normalize`; `C` the camera center. -/
structure NormalOracle where
  p3 : ℤ → ℤ → ℚ → Vec3
  sizeV : Vec3 → ℚ
  planePCA : List (Vec3 × ℚ) → Option (Vec3 × Vec3)
  normalizeV : Vec3 → Vec3
  C : Vec3

/-- The `(yp, xp)` window offsets of the kernel's double loop, `yp` outer,
each from `-wsh` to `wsh`. -/
def normalWindow (wsh : ℤ) : List (ℤ × ℤ) :=
  (List.range (2 * wsh + 1).toNat).flatMap (fun j =>
    (List.range (2 * wsh + 1).toNat).map (fun i => (-wsh + (j : ℤ), -wsh + (i : ℤ))))

/-- The samples accumulated into `cuda_stat3d` by `computeNormalMap_kernel`
(lines 72-85) for center pixel `(x, y)`: a neighbor at offset `(yp, xp)` with
depth `depthn` enters iff `depth > 0.0f && fabs(depthn - depth) < 30.0f *
pixSize` — note the guard tests the center depth `depth`, not the neighbor
depth `depthn`. -/
def computeNormalSamples (O : NormalOracle) (depthMap : ℤ → ℤ → ℚ) (wsh x y : ℤ) :
    List (Vec3 × ℚ) :=
  let depth := depthMap x y
  let p := O.p3 x y depth
  let p2 := O.p3 (x + 1) y depth
  let pixSize := O.sizeV (p.sub p2)
  (normalWindow wsh).filterMap (fun d =>
    let depthn := depthMap (x + d.2) (y + d.1)
    if 0 < depth ∧ |depthn - depth| < 30 * pixSize then
      some (O.p3 (x + d.2) (y + d.1) depthn, 1)
    else none)

/-- `computeNormalMap_kernel` at one pixel: sentinel on invalid depth
(lines 54-59), otherwise plane-fit the window samples and orient the normal
toward the camera (lines 87-103). -/
def computeNormalMapPixel (O : NormalOracle) (depthMap : ℤ → ℤ → ℚ) (wsh x y : ℤ) : Vec3 :=
  let depth := depthMap x y
  if depth ≤ 0 then sentinelNormal
  else
    match O.planePCA (computeNormalSamples O depthMap wsh x y) with
    | none => sentinelNormal
    | some (pp, nn) =>
      let p := O.p3 x y depth
      let nc := O.normalizeV (O.C.sub p)
      if (pp.add nn).dot nc - pp.dot nc < 0 then nn.neg else nn

/-- A concrete camera-geometry instance used to evaluate the kernel: a camera
at the origin with `p3 x y d = (d·x, d·y, d)`; the norm oracle agrees with
the Euclidean norm on every vector it is applied to (single nonzero
coordinate). -/
def straightOracle : NormalOracle :=
  { p3 := fun px py d => ⟨d * (px : ℚ), d * (py : ℚ), d⟩,
    sizeV := fun v => |v.x| + |v.y| + |v.z|,
    planePCA := fun _ => none,
    normalizeV := fun v => v,
    C := ⟨0, 0, 0⟩ }

/-- A depth map whose pixel `(2, 1)` holds the invalid depth 0 and whose
other pixels hold depth 1. -/
def depthMapWithHole : ℤ → ℤ → ℚ := fun x y => if x = 2 ∧ y = 1 then 0 else 1

/-! ## SGM similarity volume: best / second-best tracking

`Modelled from the spec:` the per-cell update kernel
(`volume_computeSimilarity` in `deviceSimilarityVolumeKernels.cuh`) is not in
this snapshot — only its driver `Sgm::computeSimilarityVolumes` and the two
volume members are (Sgm.hpp, lines 79-83, 127-128).  Per the spec, both
volumes start at the maximal sentinel cost and each neighbor camera's cost is
folded in, keeping the running best and second-best values. -/

/-- Maximal sentinel cost (cost type is an 8-bit similarity, 255 = no data). -/
def maxSentinelCost : ℚ := 255

/-- Fold one neighbor cost into the running `(best, secondBest)` pair. -/
def volumeUpdate (bs : ℚ × ℚ) (c : ℚ) : ℚ × ℚ :=
  if c < bs.1 then (c, bs.1)
  else if c < bs.2 then (bs.1, c)
  else bs

/-- Accumulate all neighbor costs of one `(pixel, depth)` cell; a neighbor
with no valid sample contributes nothing (`none`). -/
def accumulateBestSecond (neighborCosts : List (Option ℚ)) : ℚ × ℚ :=
  (neighborCosts.filterMap id).foldl volumeUpdate (maxSentinelCost, maxSentinelCost)

/-! ## Refinement optimization (`cuda_depthSimMapOptimizeGradientDescent`)

The host driver is embedded as the list of kernel launches it enqueues, in
order, on the execution queue; the two device kernels whose bodies are
outside this snapshot (`optimize_varLofLABtoW_kernel`,
`optimize_depthSimMap_kernel`) are abstract map-transformers receiving
exactly the buffers the source passes them.
`optimize_getOptDeptMapFromOptDepthSimMap_kernel` copies the depth channel of
the optimized map into the temporary buffer (source comment, line 316). -/

/-- Depth channel extraction (the tmp-copy kernel). -/
def depthChannel (m : ℤ → ℤ → ℚ × ℚ) : ℤ → ℤ → ℚ := fun y x => (m y x).1

/-- The two device kernels with bodies outside this snapshot, abstracted.
`adjust variance tmpDepths current sgmDepthPixSize refineDepthSim iter`
models `optimize_depthSimMap_kernel`. -/
structure OptKernels where
  varLofLAB : (ℤ → ℤ → ℚ) → (ℤ → ℤ → ℚ)
  adjust : (ℤ → ℤ → ℚ) → (ℤ → ℤ → ℚ) → (ℤ → ℤ → ℚ × ℚ) → (ℤ → ℤ → ℚ × ℚ) →
    (ℤ → ℤ → ℚ × ℚ) → ℕ → (ℤ → ℤ → ℚ × ℚ)

/-- One enqueued operation of the optimization driver. -/
inductive OptCmd
  | copyFromSgm
  | computeVariance
  | copyDepthToTmp
  | adjustStep (iter : ℕ)

def OptCmd.isAdjustStep : OptCmd → Bool
  | OptCmd.adjustStep _ => true
  | _ => false

/-- Device-memory state owned by the driver. -/
structure OptState where
  out : ℤ → ℤ → ℚ × ℚ
  tmp : ℤ → ℤ → ℚ
  variance : ℤ → ℤ → ℚ

/-- Effect of one enqueued operation (in-order execution on the stream). -/
def optStep (K : OptKernels) (img : ℤ → ℤ → ℚ)
    (sgmDepthPixSizeMap refineDepthSimMap : ℤ → ℤ → ℚ × ℚ) (σ : OptState) :
    OptCmd → OptState
  | OptCmd.copyFromSgm => { σ with out := sgmDepthPixSizeMap }
  | OptCmd.computeVariance => { σ with variance := K.varLofLAB img }
  | OptCmd.copyDepthToTmp => { σ with tmp := depthChannel σ.out }
  | OptCmd.adjustStep iter =>
    { σ with out := K.adjust σ.variance σ.tmp σ.out sgmDepthPixSizeMap refineDepthSimMap iter }

/-- The launch sequence of `cuda_depthSimMapOptimizeGradientDescent`
(lines 280-340): initialize the optimized map from the SGM depth/pixSize
map, compute the image variance, then for `iter = 0 .. n-1` copy the current
optimized depths to the temporary map and run one adjustment step. -/
def optimizeGDProgram (n : ℕ) : List OptCmd :=
  OptCmd.copyFromSgm :: OptCmd.computeVariance ::
    (List.range n).flatMap (fun i => [OptCmd.copyDepthToTmp, OptCmd.adjustStep i])

/-- Run the driver: fold the launch sequence over the initial device state. -/
def optimizeGradientDescent (K : OptKernels) (img : ℤ → ℤ → ℚ)
    (sgmDepthPixSizeMap refineDepthSimMap : ℤ → ℤ → ℚ × ℚ) (n : ℕ) (σ0 : OptState) :
    OptState :=
  (optimizeGDProgram n).foldl (optStep K img sgmDepthPixSizeMap refineDepthSimMap) σ0

/-- Direct recurrence for the optimized map: start from the SGM depth/pixSize
map; each iteration adjusts the previous map using the variance field, the
previous depths, the SGM prior, the refine estimate and the iteration
index. -/
def optimizedDepthSimRec (K : OptKernels) (img : ℤ → ℤ → ℚ)
    (sgmDepthPixSizeMap refineDepthSimMap : ℤ → ℤ → ℚ × ℚ) : ℕ → (ℤ → ℤ → ℚ × ℚ)
  | 0 => sgmDepthPixSizeMap
  | k + 1 =>
    let prev := optimizedDepthSimRec K img sgmDepthPixSizeMap refineDepthSimMap k
    K.adjust (K.varLofLAB img) (depthChannel prev) prev sgmDepthPixSizeMap refineDepthSimMap k

/-- `Modelled from the spec:` the default `RefineParams::optimizationNbIterations`
(the parameter header is outside this snapshot; the source comment at the
loop says "default nb iterations is 100"). -/
def optimizationNbIterationsDefault : ℕ := 100

/-! # Theorems -/

/-! ## Clamp algebra -/

theorem clamp01_add_compl (u : ℚ) : clamp u 0 1 + clamp (1 - u) 0 1 = 1 := by
  simp only [clamp, min_def, max_def]
  split_ifs <;> linarith

theorem ramp_compl (D u v : ℚ) (hD : D ≠ 0) (huv : u + v = D) :
    clamp (u / D) 0 1 + clamp (v / D) 0 1 = 1 := by
  have hv : v / D = 1 - u / D := by field_simp; linarith
  rw [hv]
  exact clamp01_add_compl (u / D)

theorem clamp01_nonneg (u : ℚ) : 0 ≤ clamp u 0 1 := by
  simp only [clamp, min_def, max_def]
  split_ifs <;> linarith

theorem clamp01_le_one (u : ℚ) : clamp u 0 1 ≤ 1 := by
  simp only [clamp, min_def, max_def]
  split_ifs <;> linarith

/-! ## Pointwise form of the weighting pipeline -/

theorem ite_weightTileBorder_at (c : Prop) [Decidable c] (a b cc d bw bh lux luy : ℤ)
    (m : ImgQ) (x y : ℤ) :
    (if c then weightTileBorder a b cc d bw bh lux luy m else m).at_ y x
      = m.at_ y x *
        (if c ∧ inTileBorder bw bh lux luy m.w m.h x y then
          weightTileBorderWeight a b cc d bw bh lux luy x y else 1) := by
  by_cases hc : c
  · by_cases hm : inTileBorder bw bh lux luy m.w m.h x y <;>
      simp [hc, hm, weightTileBorder]
  · simp [hc]

theorem ite_weightTileBorder_w (c : Prop) [Decidable c] (a b cc d bw bh lux luy : ℤ)
    (m : ImgQ) :
    (if c then weightTileBorder a b cc d bw bh lux luy m else m).w = m.w := by
  by_cases hc : c <;> simp [hc, weightTileBorder]

theorem ite_weightTileBorder_h (c : Prop) [Decidable c] (a b cc d bw bh lux luy : ℤ)
    (m : ImgQ) :
    (if c then weightTileBorder a b cc d bw bh lux luy m else m).h = m.h := by
  by_cases hc : c <;> simp [hc, weightTileBorder]

/-- The eight conditional `weightTileBorder` calls multiply each pixel by
`tileFactor`. -/
theorem applyTileWeights_at_factor (firstColumn lastColumn firstRow lastRow : Bool)
    (tileWidth tileHeight tilePadding : ℤ) (m : ImgQ) (x y : ℤ) :
    (applyTileWeights firstColumn lastColumn firstRow lastRow
        tileWidth tileHeight tilePadding m).at_ y x
      = m.at_ y x * tileFactor firstColumn lastColumn firstRow lastRow
          tileWidth tileHeight tilePadding m.w m.h x y := by
  simp only [applyTileWeights]
  rw [ite_weightTileBorder_at, ite_weightTileBorder_at, ite_weightTileBorder_at,
    ite_weightTileBorder_at, ite_weightTileBorder_at, ite_weightTileBorder_at,
    ite_weightTileBorder_at, ite_weightTileBorder_at]
  simp only [ite_weightTileBorder_w, ite_weightTileBorder_h]
  unfold tileFactor
  ring

theorem notand_of_notright {A B : Prop} (h : ¬B) : ¬(A ∧ B) := fun hab => h hab.2

theorem inTileBorder_iff (bw bh lux luy mw mh x y : ℤ) :
    inTileBorder bw bh lux luy mw mh x y ↔
      lux ≤ x ∧ x < lux + bw ∧ x < mw ∧ luy ≤ y ∧ y < luy + bh ∧ y < mh := by
  unfold inTileBorder
  rw [lt_min_iff, lt_min_iff]
  tauto

theorem castNe4 (p : ℤ) (h : p ≠ 4) : ((p : ℚ) - 4) ≠ 0 := by
  intro hc
  apply h
  have hpq : (p : ℚ) = 4 := by linarith
  exact_mod_cast hpq

theorem castNe4' (tw p : ℤ) (h : tw - 2 * p ≠ 4) : ((tw : ℚ) - 2 * (p : ℚ) - 4) ≠ 0 := by
  intro hc
  apply h
  have hq : (tw : ℚ) - 2 * (p : ℚ) = 4 := by linarith
  have : ((tw - 2 * p : ℤ) : ℚ) = 4 := by push_cast; linarith
  exact_mod_cast this

/-! ### Expansion of `weightTileBorderWeight` at the eight block positions -/

theorem wtbW_TL (a b cc d p x y : ℤ) :
    weightTileBorderWeight a b cc d p p 0 0 x y =
      clamp (((p : ℚ) - 2 - (y : ℚ)) / ((p : ℚ) - 4)) 0 1 *
        (clamp (((p : ℚ) - 2 - (x : ℚ)) / ((p : ℚ) - 4)) 0 1 * (a : ℚ) +
         clamp (((x : ℚ) - 2) / ((p : ℚ) - 4)) 0 1 * (b : ℚ)) +
      clamp (((y : ℚ) - 2) / ((p : ℚ) - 4)) 0 1 *
        (clamp (((p : ℚ) - 2 - (x : ℚ)) / ((p : ℚ) - 4)) 0 1 * (d : ℚ) +
         clamp (((x : ℚ) - 2) / ((p : ℚ) - 4)) 0 1 * (cc : ℚ)) := by
  simp only [weightTileBorderWeight]
  push_cast
  ring_nf

theorem wtbW_BL (a b cc d p th x y : ℤ) :
    weightTileBorderWeight a b cc d p p 0 (th - p) x y =
      clamp (((th : ℚ) - 2 - (y : ℚ)) / ((p : ℚ) - 4)) 0 1 *
        (clamp (((p : ℚ) - 2 - (x : ℚ)) / ((p : ℚ) - 4)) 0 1 * (a : ℚ) +
         clamp (((x : ℚ) - 2) / ((p : ℚ) - 4)) 0 1 * (b : ℚ)) +
      clamp (((y : ℚ) - (th : ℚ) + (p : ℚ) - 2) / ((p : ℚ) - 4)) 0 1 *
        (clamp (((p : ℚ) - 2 - (x : ℚ)) / ((p : ℚ) - 4)) 0 1 * (d : ℚ) +
         clamp (((x : ℚ) - 2) / ((p : ℚ) - 4)) 0 1 * (cc : ℚ)) := by
  simp only [weightTileBorderWeight]
  push_cast
  ring_nf

theorem wtbW_TR (a b cc d p tw x y : ℤ) :
    weightTileBorderWeight a b cc d p p (tw - p) 0 x y =
      clamp (((p : ℚ) - 2 - (y : ℚ)) / ((p : ℚ) - 4)) 0 1 *
        (clamp (((tw : ℚ) - 2 - (x : ℚ)) / ((p : ℚ) - 4)) 0 1 * (a : ℚ) +
         clamp (((x : ℚ) - (tw : ℚ) + (p : ℚ) - 2) / ((p : ℚ) - 4)) 0 1 * (b : ℚ)) +
      clamp (((y : ℚ) - 2) / ((p : ℚ) - 4)) 0 1 *
        (clamp (((tw : ℚ) - 2 - (x : ℚ)) / ((p : ℚ) - 4)) 0 1 * (d : ℚ) +
         clamp (((x : ℚ) - (tw : ℚ) + (p : ℚ) - 2) / ((p : ℚ) - 4)) 0 1 * (cc : ℚ)) := by
  simp only [weightTileBorderWeight]
  push_cast
  ring_nf

theorem wtbW_BR (a b cc d p tw th x y : ℤ) :
    weightTileBorderWeight a b cc d p p (tw - p) (th - p) x y =
      clamp (((th : ℚ) - 2 - (y : ℚ)) / ((p : ℚ) - 4)) 0 1 *
        (clamp (((tw : ℚ) - 2 - (x : ℚ)) / ((p : ℚ) - 4)) 0 1 * (a : ℚ) +
         clamp (((x : ℚ) - (tw : ℚ) + (p : ℚ) - 2) / ((p : ℚ) - 4)) 0 1 * (b : ℚ)) +
      clamp (((y : ℚ) - (th : ℚ) + (p : ℚ) - 2) / ((p : ℚ) - 4)) 0 1 *
        (clamp (((tw : ℚ) - 2 - (x : ℚ)) / ((p : ℚ) - 4)) 0 1 * (d : ℚ) +
         clamp (((x : ℚ) - (tw : ℚ) + (p : ℚ) - 2) / ((p : ℚ) - 4)) 0 1 * (cc : ℚ)) := by
  simp only [weightTileBorderWeight]
  push_cast
  ring_nf

theorem wtbW_top (a b cc d p tw x y : ℤ) :
    weightTileBorderWeight a b cc d (tw - 2 * p) p p 0 x y =
      clamp (((p : ℚ) - 2 - (y : ℚ)) / ((p : ℚ) - 4)) 0 1 *
        (clamp (((tw : ℚ) - (p : ℚ) - 2 - (x : ℚ)) / ((tw : ℚ) - 2 * (p : ℚ) - 4)) 0 1 * (a : ℚ) +
         clamp (((x : ℚ) - (p : ℚ) - 2) / ((tw : ℚ) - 2 * (p : ℚ) - 4)) 0 1 * (b : ℚ)) +
      clamp (((y : ℚ) - 2) / ((p : ℚ) - 4)) 0 1 *
        (clamp (((tw : ℚ) - (p : ℚ) - 2 - (x : ℚ)) / ((tw : ℚ) - 2 * (p : ℚ) - 4)) 0 1 * (d : ℚ) +
         clamp (((x : ℚ) - (p : ℚ) - 2) / ((tw : ℚ) - 2 * (p : ℚ) - 4)) 0 1 * (cc : ℚ)) := by
  simp only [weightTileBorderWeight]
  push_cast
  ring_nf

theorem wtbW_bottom (a b cc d p tw th x y : ℤ) :
    weightTileBorderWeight a b cc d (tw - 2 * p) p p (th - p) x y =
      clamp (((th : ℚ) - 2 - (y : ℚ)) / ((p : ℚ) - 4)) 0 1 *
        (clamp (((tw : ℚ) - (p : ℚ) - 2 - (x : ℚ)) / ((tw : ℚ) - 2 * (p : ℚ) - 4)) 0 1 * (a : ℚ) +
         clamp (((x : ℚ) - (p : ℚ) - 2) / ((tw : ℚ) - 2 * (p : ℚ) - 4)) 0 1 * (b : ℚ)) +
      clamp (((y : ℚ) - (th : ℚ) + (p : ℚ) - 2) / ((p : ℚ) - 4)) 0 1 *
        (clamp (((tw : ℚ) - (p : ℚ) - 2 - (x : ℚ)) / ((tw : ℚ) - 2 * (p : ℚ) - 4)) 0 1 * (d : ℚ) +
         clamp (((x : ℚ) - (p : ℚ) - 2) / ((tw : ℚ) - 2 * (p : ℚ) - 4)) 0 1 * (cc : ℚ)) := by
  simp only [weightTileBorderWeight]
  push_cast
  ring_nf

theorem wtbW_left (a b cc d p th x y : ℤ) :
    weightTileBorderWeight a b cc d p (th - 2 * p) 0 p x y =
      clamp (((th : ℚ) - (p : ℚ) - 2 - (y : ℚ)) / ((th : ℚ) - 2 * (p : ℚ) - 4)) 0 1 *
        (clamp (((p : ℚ) - 2 - (x : ℚ)) / ((p : ℚ) - 4)) 0 1 * (a : ℚ) +
         clamp (((x : ℚ) - 2) / ((p : ℚ) - 4)) 0 1 * (b : ℚ)) +
      clamp (((y : ℚ) - (p : ℚ) - 2) / ((th : ℚ) - 2 * (p : ℚ) - 4)) 0 1 *
        (clamp (((p : ℚ) - 2 - (x : ℚ)) / ((p : ℚ) - 4)) 0 1 * (d : ℚ) +
         clamp (((x : ℚ) - 2) / ((p : ℚ) - 4)) 0 1 * (cc : ℚ)) := by
  simp only [weightTileBorderWeight]
  push_cast
  ring_nf

theorem wtbW_right (a b cc d p tw th x y : ℤ) :
    weightTileBorderWeight a b cc d p (th - 2 * p) (tw - p) p x y =
      clamp (((th : ℚ) - (p : ℚ) - 2 - (y : ℚ)) / ((th : ℚ) - 2 * (p : ℚ) - 4)) 0 1 *
        (clamp (((tw : ℚ) - 2 - (x : ℚ)) / ((p : ℚ) - 4)) 0 1 * (a : ℚ) +
         clamp (((x : ℚ) - (tw : ℚ) + (p : ℚ) - 2) / ((p : ℚ) - 4)) 0 1 * (b : ℚ)) +
      clamp (((y : ℚ) - (p : ℚ) - 2) / ((th : ℚ) - 2 * (p : ℚ) - 4)) 0 1 *
        (clamp (((tw : ℚ) - 2 - (x : ℚ)) / ((p : ℚ) - 4)) 0 1 * (d : ℚ) +
         clamp (((x : ℚ) - (tw : ℚ) + (p : ℚ) - 2) / ((p : ℚ) - 4)) 0 1 * (cc : ℚ)) := by
  simp only [weightTileBorderWeight]
  push_cast
  ring_nf

/-! ### Band values of `sideWeight` -/

theorem sideWeight_low (lc : Bool) (len p t : ℤ) (ht : t < p) :
    sideWeight false lc len p t = clamp (((t : ℚ) - 2) / ((p : ℚ) - 4)) 0 1 := by
  unfold sideWeight
  rw [if_pos ⟨rfl, ht⟩]

theorem sideWeight_first_low (lc : Bool) (len p t : ℤ) (ht : t < p) (h2 : 2 * p < len) :
    sideWeight true lc len p t = 1 := by
  unfold sideWeight
  rw [if_neg (by simp), if_neg (by rintro ⟨h1, h3⟩; omega)]

theorem sideWeight_mid (f l : Bool) (len p t : ℤ) (h1 : p ≤ t) (h2 : t < len - p) :
    sideWeight f l len p t = 1 := by
  unfold sideWeight
  rw [if_neg (by rintro ⟨h3, h4⟩; omega), if_neg (by rintro ⟨h3, h4⟩; omega)]

theorem sideWeight_high (f : Bool) (len p t : ℤ) (ht : len - p ≤ t) (h2 : 2 * p < len) :
    sideWeight f false len p t =
      clamp (((len : ℚ) - 2 - (t : ℚ)) / ((p : ℚ) - 4)) 0 1 := by
  unfold sideWeight
  rw [if_neg (by rintro ⟨h3, h4⟩; omega), if_pos ⟨rfl, ht⟩]

theorem sideWeight_high_last (f : Bool) (len p t : ℤ) (ht : len - p ≤ t) (h2 : 2 * p < len) :
    sideWeight f true len p t = 1 := by
  unfold sideWeight
  rw [if_neg (by rintro ⟨h3, h4⟩; omega), if_neg (by rintro ⟨h3, h4⟩; simp at h3)]

/-- The blending law factorizes: the total weight of the eight conditional
`weightTileBorder` calls at a pixel is the product of a horizontal and a
vertical ramp factor.  Requires `0 ≤ p` and `2p` smaller than each tile
dimension (spec invariant) and nonzero margin-adjusted ramp denominators. -/
theorem tileFactor_eq_sideWeights (fc lc fr lr : Bool) (tw th p : ℤ)
    (hp : 0 ≤ p) (htw : 2 * p < tw) (hth : 2 * p < th)
    (hD : p = 0 ∨ (p ≠ 4 ∧ tw - 2 * p ≠ 4 ∧ th - 2 * p ≠ 4))
    (x y : ℤ) (hx0 : 0 ≤ x) (hx1 : x < tw) (hy0 : 0 ≤ y) (hy1 : y < th) :
    tileFactor fc lc fr lr tw th p tw th x y
      = sideWeight fc lc tw p x * sideWeight fr lr th p y := by
  rcases lt_or_le x p with hxL | hx2
  · -- x in the left band; hence 0 < p
    rcases hD with hp0 | ⟨h4, hw4, hh4⟩
    · omega
    have k3 : ¬ inTileBorder p p (tw - p) 0 tw th x y := by rw [inTileBorder_iff]; omega
    have k4 : ¬ inTileBorder p p (tw - p) (th - p) tw th x y := by rw [inTileBorder_iff]; omega
    have k5 : ¬ inTileBorder (tw - 2 * p) p p 0 tw th x y := by rw [inTileBorder_iff]; omega
    have k6 : ¬ inTileBorder (tw - 2 * p) p p (th - p) tw th x y := by rw [inTileBorder_iff]; omega
    have k8 : ¬ inTileBorder p (th - 2 * p) (tw - p) p tw th x y := by rw [inTileBorder_iff]; omega
    rcases lt_or_le y p with hyL | hy2
    · -- region LL: only the top-left corner block can apply
      have k2 : ¬ inTileBorder p p 0 (th - p) tw th x y := by rw [inTileBorder_iff]; omega
      have k7 : ¬ inTileBorder p (th - 2 * p) 0 p tw th x y := by rw [inTileBorder_iff]; omega
      have m1 : inTileBorder p p 0 0 tw th x y := by rw [inTileBorder_iff]; omega
      unfold tileFactor
      rw [if_neg (notand_of_notright k2), if_neg (notand_of_notright k3),
        if_neg (notand_of_notright k4), if_neg (notand_of_notright k5),
        if_neg (notand_of_notright k6), if_neg (notand_of_notright k7),
        if_neg (notand_of_notright k8)]
      cases fc
      · cases fr
        · -- interior corner: weight lX · lY
          have hcond : (¬(false : Bool) ∨ ¬(false : Bool)) ∧ inTileBorder p p 0 0 tw th x y :=
            ⟨by decide, m1⟩
          rw [if_pos hcond, wtbW_TL, sideWeight_low lc tw p x hxL, sideWeight_low lr th p y hyL]
          norm_num
          ring
        · -- first row: weight (rY + lY) · lX = lX
          have hcond : (¬(false : Bool) ∨ ¬(true : Bool)) ∧ inTileBorder p p 0 0 tw th x y :=
            ⟨by decide, m1⟩
          rw [if_pos hcond, wtbW_TL, sideWeight_low lc tw p x hxL,
            sideWeight_first_low lr th p y hyL hth]
          norm_num
          have hsum := ramp_compl ((p : ℚ) - 4) ((p : ℚ) - 2 - (y : ℚ)) ((y : ℚ) - 2)
            (castNe4 p h4) (by ring)
          linear_combination (clamp (((x : ℚ) - 2) / ((p : ℚ) - 4)) 0 1) * hsum
      · cases fr
        · -- first column: weight lY · (rX + lX) = lY
          have hcond : (¬(true : Bool) ∨ ¬(false : Bool)) ∧ inTileBorder p p 0 0 tw th x y :=
            ⟨by decide, m1⟩
          rw [if_pos hcond, wtbW_TL, sideWeight_first_low lc tw p x hxL htw,
            sideWeight_low lr th p y hyL]
          norm_num
          have hsum := ramp_compl ((p : ℚ) - 4) ((p : ℚ) - 2 - (x : ℚ)) ((x : ℚ) - 2)
            (castNe4 p h4) (by ring)
          linear_combination (clamp (((y : ℚ) - 2) / ((p : ℚ) - 4)) 0 1) * hsum
        · -- first column and first row: block skipped, weight 1
          have hncond : ¬((¬(true : Bool) ∨ ¬(true : Bool)) ∧ inTileBorder p p 0 0 tw th x y) :=
            fun h => by rcases h.1 with hh | hh <;> exact hh rfl
          rw [if_neg hncond, sideWeight_first_low lc tw p x hxL htw,
            sideWeight_first_low lr th p y hyL hth]
          norm_num
    rcases lt_or_le y (th - p) with hyM | hyH
    · -- region LM: only the left border block can apply
      have k1 : ¬ inTileBorder p p 0 0 tw th x y := by rw [inTileBorder_iff]; omega
      have k2 : ¬ inTileBorder p p 0 (th - p) tw th x y := by rw [inTileBorder_iff]; omega
      have m7 : inTileBorder p (th - 2 * p) 0 p tw th x y := by rw [inTileBorder_iff]; omega
      unfold tileFactor
      rw [if_neg (notand_of_notright k1), if_neg (notand_of_notright k2),
        if_neg (notand_of_notright k3), if_neg (notand_of_notright k4),
        if_neg (notand_of_notright k5), if_neg (notand_of_notright k6),
        if_neg (notand_of_notright k8)]
      cases fc
      · -- interior column: weight lX · (rY + lY) = lX
        have hcond : ¬(false : Bool) ∧ inTileBorder p (th - 2 * p) 0 p tw th x y :=
          ⟨by decide, m7⟩
        rw [if_pos hcond, wtbW_left, sideWeight_low lc tw p x hxL,
          sideWeight_mid fr lr th p y hy2 hyM]
        norm_num
        have hsum := ramp_compl ((th : ℚ) - 2 * (p : ℚ) - 4)
          ((th : ℚ) - (p : ℚ) - 2 - (y : ℚ)) ((y : ℚ) - (p : ℚ) - 2)
          (castNe4' th p hh4) (by ring)
        linear_combination (clamp (((x : ℚ) - 2) / ((p : ℚ) - 4)) 0 1) * hsum
      · -- first column: block skipped, weight 1
        have hncond : ¬(¬(true : Bool) ∧ inTileBorder p (th - 2 * p) 0 p tw th x y) :=
          fun h => h.1 rfl
        rw [if_neg hncond, sideWeight_first_low lc tw p x hxL htw,
          sideWeight_mid fr lr th p y hy2 hyM]
        norm_num
    · -- region LH: only the bottom-left corner block can apply
      have k1 : ¬ inTileBorder p p 0 0 tw th x y := by rw [inTileBorder_iff]; omega
      have k7 : ¬ inTileBorder p (th - 2 * p) 0 p tw th x y := by rw [inTileBorder_iff]; omega
      have m2 : inTileBorder p p 0 (th - p) tw th x y := by rw [inTileBorder_iff]; omega
      unfold tileFactor
      rw [if_neg (notand_of_notright k1), if_neg (notand_of_notright k3),
        if_neg (notand_of_notright k4), if_neg (notand_of_notright k5),
        if_neg (notand_of_notright k6), if_neg (notand_of_notright k7),
        if_neg (notand_of_notright k8)]
      cases fc
      · cases lr
        · -- interior corner: weight rY · lX
          have hcond : (¬(false : Bool) ∨ ¬(false : Bool)) ∧
              inTileBorder p p 0 (th - p) tw th x y := ⟨by decide, m2⟩
          rw [if_pos hcond, wtbW_BL, sideWeight_low lc tw p x hxL,
            sideWeight_high fr th p y hyH hth]
          norm_num
          ring
        · -- last row: weight lX · (rY + lY) = lX
          have hcond : (¬(false : Bool) ∨ ¬(true : Bool)) ∧
              inTileBorder p p 0 (th - p) tw th x y := ⟨by decide, m2⟩
          rw [if_pos hcond, wtbW_BL, sideWeight_low lc tw p x hxL,
            sideWeight_high_last fr th p y hyH hth]
          norm_num
          have hsum := ramp_compl ((p : ℚ) - 4) ((th : ℚ) - 2 - (y : ℚ))
            ((y : ℚ) - (th : ℚ) + (p : ℚ) - 2) (castNe4 p h4) (by ring)
          linear_combination (clamp (((x : ℚ) - 2) / ((p : ℚ) - 4)) 0 1) * hsum
      · cases lr
        · -- first column: weight rY · (rX + lX) = rY
          have hcond : (¬(true : Bool) ∨ ¬(false : Bool)) ∧
              inTileBorder p p 0 (th - p) tw th x y := ⟨by decide, m2⟩
          rw [if_pos hcond, wtbW_BL, sideWeight_first_low lc tw p x hxL htw,
            sideWeight_high fr th p y hyH hth]
          norm_num
          have hsum := ramp_compl ((p : ℚ) - 4) ((p : ℚ) - 2 - (x : ℚ)) ((x : ℚ) - 2)
            (castNe4 p h4) (by ring)
          linear_combination (clamp (((th : ℚ) - 2 - (y : ℚ)) / ((p : ℚ) - 4)) 0 1) * hsum
        · -- first column and last row: block skipped, weight 1
          have hncond : ¬((¬(true : Bool) ∨ ¬(true : Bool)) ∧
              inTileBorder p p 0 (th - p) tw th x y) :=
            fun h => by rcases h.1 with hh | hh <;> exact hh rfl
          rw [if_neg hncond, sideWeight_first_low lc tw p x hxL htw,
            sideWeight_high_last fr th p y hyH hth]
          norm_num
  · rcases lt_or_le x (tw - p) with hxM | hxH
    · -- x in the middle band
      have k1 : ¬ inTileBorder p p 0 0 tw th x y := by rw [inTileBorder_iff]; omega
      have k2 : ¬ inTileBorder p p 0 (th - p) tw th x y := by rw [inTileBorder_iff]; omega
      have k3 : ¬ inTileBorder p p (tw - p) 0 tw th x y := by rw [inTileBorder_iff]; omega
      have k4 : ¬ inTileBorder p p (tw - p) (th - p) tw th x y := by rw [inTileBorder_iff]; omega
      have k7 : ¬ inTileBorder p (th - 2 * p) 0 p tw th x y := by rw [inTileBorder_iff]; omega
      have k8 : ¬ inTileBorder p (th - 2 * p) (tw - p) p tw th x y := by
        rw [inTileBorder_iff]; omega
      rcases lt_or_le y p with hyL | hy2
      · -- region ML: only the top border block can apply; 0 < p
        rcases hD with hp0 | ⟨h4, hw4, hh4⟩
        · omega
        have k6 : ¬ inTileBorder (tw - 2 * p) p p (th - p) tw th x y := by
          rw [inTileBorder_iff]; omega
        have m5 : inTileBorder (tw - 2 * p) p p 0 tw th x y := by rw [inTileBorder_iff]; omega
        unfold tileFactor
        rw [if_neg (notand_of_notright k1), if_neg (notand_of_notright k2),
          if_neg (notand_of_notright k3), if_neg (notand_of_notright k4),
          if_neg (notand_of_notright k6), if_neg (notand_of_notright k7),
          if_neg (notand_of_notright k8)]
        cases fr
        · -- interior row: weight lY · (rX + lX) = lY
          have hcond : ¬(false : Bool) ∧ inTileBorder (tw - 2 * p) p p 0 tw th x y :=
            ⟨by decide, m5⟩
          rw [if_pos hcond, wtbW_top, sideWeight_mid fc lc tw p x hx2 hxM,
            sideWeight_low lr th p y hyL]
          norm_num
          have hsum := ramp_compl ((tw : ℚ) - 2 * (p : ℚ) - 4)
            ((tw : ℚ) - (p : ℚ) - 2 - (x : ℚ)) ((x : ℚ) - (p : ℚ) - 2)
            (castNe4' tw p hw4) (by ring)
          linear_combination (clamp (((y : ℚ) - 2) / ((p : ℚ) - 4)) 0 1) * hsum
        · -- first row: block skipped, weight 1
          have hncond : ¬(¬(true : Bool) ∧ inTileBorder (tw - 2 * p) p p 0 tw th x y) :=
            fun h => h.1 rfl
          rw [if_neg hncond, sideWeight_mid fc lc tw p x hx2 hxM,
            sideWeight_first_low lr th p y hyL hth]
          norm_num
      rcases lt_or_le y (th - p) with hyM | hyH
      · -- region MM: no block applies, weight 1
        have k5 : ¬ inTileBorder (tw - 2 * p) p p 0 tw th x y := by
          rw [inTileBorder_iff]; omega
        have k6 : ¬ inTileBorder (tw - 2 * p) p p (th - p) tw th x y := by
          rw [inTileBorder_iff]; omega
        unfold tileFactor
        rw [if_neg (notand_of_notright k1), if_neg (notand_of_notright k2),
          if_neg (notand_of_notright k3), if_neg (notand_of_notright k4),
          if_neg (notand_of_notright k5), if_neg (notand_of_notright k6),
          if_neg (notand_of_notright k7), if_neg (notand_of_notright k8),
          sideWeight_mid fc lc tw p x hx2 hxM, sideWeight_mid fr lr th p y hy2 hyM]
        norm_num
      · -- region MH: only the bottom border block can apply; 0 < p
        rcases hD with hp0 | ⟨h4, hw4, hh4⟩
        · omega
        have k5 : ¬ inTileBorder (tw - 2 * p) p p 0 tw th x y := by
          rw [inTileBorder_iff]; omega
        have m6 : inTileBorder (tw - 2 * p) p p (th - p) tw th x y := by
          rw [inTileBorder_iff]; omega
        unfold tileFactor
        rw [if_neg (notand_of_notright k1), if_neg (notand_of_notright k2),
          if_neg (notand_of_notright k3), if_neg (notand_of_notright k4),
          if_neg (notand_of_notright k5), if_neg (notand_of_notright k7),
          if_neg (notand_of_notright k8)]
        cases lr
        · -- interior row: weight rY · (rX + lX) = rY
          have hcond : ¬(false : Bool) ∧ inTileBorder (tw - 2 * p) p p (th - p) tw th x y :=
            ⟨by decide, m6⟩
          rw [if_pos hcond, wtbW_bottom, sideWeight_mid fc lc tw p x hx2 hxM,
            sideWeight_high fr th p y hyH hth]
          norm_num
          have hsum := ramp_compl ((tw : ℚ) - 2 * (p : ℚ) - 4)
            ((tw : ℚ) - (p : ℚ) - 2 - (x : ℚ)) ((x : ℚ) - (p : ℚ) - 2)
            (castNe4' tw p hw4) (by ring)
          linear_combination (clamp (((th : ℚ) - 2 - (y : ℚ)) / ((p : ℚ) - 4)) 0 1) * hsum
        · -- last row: block skipped, weight 1
          have hncond : ¬(¬(true : Bool) ∧
              inTileBorder (tw - 2 * p) p p (th - p) tw th x y) := fun h => h.1 rfl
          rw [if_neg hncond, sideWeight_mid fc lc tw p x hx2 hxM,
            sideWeight_high_last fr th p y hyH hth]
          norm_num
    · -- x in the right band; hence 0 < p
      rcases hD with hp0 | ⟨h4, hw4, hh4⟩
      · omega
      have k1 : ¬ inTileBorder p p 0 0 tw th x y := by rw [inTileBorder_iff]; omega
      have k2 : ¬ inTileBorder p p 0 (th - p) tw th x y := by rw [inTileBorder_iff]; omega
      have k5 : ¬ inTileBorder (tw - 2 * p) p p 0 tw th x y := by rw [inTileBorder_iff]; omega
      have k6 : ¬ inTileBorder (tw - 2 * p) p p (th - p) tw th x y := by
        rw [inTileBorder_iff]; omega
      have k7 : ¬ inTileBorder p (th - 2 * p) 0 p tw th x y := by rw [inTileBorder_iff]; omega
      rcases lt_or_le y p with hyL | hy2
      · -- region RL: only the top-right corner block can apply
        have k4 : ¬ inTileBorder p p (tw - p) (th - p) tw th x y := by
          rw [inTileBorder_iff]; omega
        have k8 : ¬ inTileBorder p (th - 2 * p) (tw - p) p tw th x y := by
          rw [inTileBorder_iff]; omega
        have m3 : inTileBorder p p (tw - p) 0 tw th x y := by rw [inTileBorder_iff]; omega
        unfold tileFactor
        rw [if_neg (notand_of_notright k1), if_neg (notand_of_notright k2),
          if_neg (notand_of_notright k4), if_neg (notand_of_notright k5),
          if_neg (notand_of_notright k6), if_neg (notand_of_notright k7),
          if_neg (notand_of_notright k8)]
        cases lc
        · cases fr
          · -- interior corner: weight rX · lY
            have hcond : (¬(false : Bool) ∨ ¬(false : Bool)) ∧
                inTileBorder p p (tw - p) 0 tw th x y := ⟨by decide, m3⟩
            rw [if_pos hcond, wtbW_TR, sideWeight_high fc tw p x hxH htw,
              sideWeight_low lr th p y hyL]
            norm_num
            ring
          · -- first row: weight rX · (rY + lY) = rX
            have hcond : (¬(false : Bool) ∨ ¬(true : Bool)) ∧
                inTileBorder p p (tw - p) 0 tw th x y := ⟨by decide, m3⟩
            rw [if_pos hcond, wtbW_TR, sideWeight_high fc tw p x hxH htw,
              sideWeight_first_low lr th p y hyL hth]
            norm_num
            have hsum := ramp_compl ((p : ℚ) - 4) ((p : ℚ) - 2 - (y : ℚ)) ((y : ℚ) - 2)
              (castNe4 p h4) (by ring)
            linear_combination (clamp (((tw : ℚ) - 2 - (x : ℚ)) / ((p : ℚ) - 4)) 0 1) * hsum
        · cases fr
          · -- last column: weight lY · (rX + lX) = lY
            have hcond : (¬(true : Bool) ∨ ¬(false : Bool)) ∧
                inTileBorder p p (tw - p) 0 tw th x y := ⟨by decide, m3⟩
            rw [if_pos hcond, wtbW_TR, sideWeight_high_last fc tw p x hxH htw,
              sideWeight_low lr th p y hyL]
            norm_num
            have hsum := ramp_compl ((p : ℚ) - 4) ((tw : ℚ) - 2 - (x : ℚ))
              ((x : ℚ) - (tw : ℚ) + (p : ℚ) - 2) (castNe4 p h4) (by ring)
            linear_combination (clamp (((y : ℚ) - 2) / ((p : ℚ) - 4)) 0 1) * hsum
          · -- last column and first row: block skipped, weight 1
            have hncond : ¬((¬(true : Bool) ∨ ¬(true : Bool)) ∧
                inTileBorder p p (tw - p) 0 tw th x y) :=
              fun h => by rcases h.1 with hh | hh <;> exact hh rfl
            rw [if_neg hncond, sideWeight_high_last fc tw p x hxH htw,
              sideWeight_first_low lr th p y hyL hth]
            norm_num
      rcases lt_or_le y (th - p) with hyM | hyH
      · -- region RM: only the right border block can apply
        have k3 : ¬ inTileBorder p p (tw - p) 0 tw th x y := by rw [inTileBorder_iff]; omega
        have k4 : ¬ inTileBorder p p (tw - p) (th - p) tw th x y := by
          rw [inTileBorder_iff]; omega
        have m8 : inTileBorder p (th - 2 * p) (tw - p) p tw th x y := by
          rw [inTileBorder_iff]; omega
        unfold tileFactor
        rw [if_neg (notand_of_notright k1), if_neg (notand_of_notright k2),
          if_neg (notand_of_notright k3), if_neg (notand_of_notright k4),
          if_neg (notand_of_notright k5), if_neg (notand_of_notright k6),
          if_neg (notand_of_notright k7)]
        cases lc
        · -- interior column: weight rX · (rY + lY) = rX
          have hcond : ¬(false : Bool) ∧
              inTileBorder p (th - 2 * p) (tw - p) p tw th x y := ⟨by decide, m8⟩
          rw [if_pos hcond, wtbW_right, sideWeight_high fc tw p x hxH htw,
            sideWeight_mid fr lr th p y hy2 hyM]
          norm_num
          have hsum := ramp_compl ((th : ℚ) - 2 * (p : ℚ) - 4)
            ((th : ℚ) - (p : ℚ) - 2 - (y : ℚ)) ((y : ℚ) - (p : ℚ) - 2)
            (castNe4' th p hh4) (by ring)
          linear_combination (clamp (((tw : ℚ) - 2 - (x : ℚ)) / ((p : ℚ) - 4)) 0 1) * hsum
        · -- last column: block skipped, weight 1
          have hncond : ¬(¬(true : Bool) ∧
              inTileBorder p (th - 2 * p) (tw - p) p tw th x y) := fun h => h.1 rfl
          rw [if_neg hncond, sideWeight_high_last fc tw p x hxH htw,
            sideWeight_mid fr lr th p y hy2 hyM]
          norm_num
      · -- region RH: only the bottom-right corner block can apply
        have k3 : ¬ inTileBorder p p (tw - p) 0 tw th x y := by rw [inTileBorder_iff]; omega
        have k8 : ¬ inTileBorder p (th - 2 * p) (tw - p) p tw th x y := by
          rw [inTileBorder_iff]; omega
        have m4 : inTileBorder p p (tw - p) (th - p) tw th x y := by
          rw [inTileBorder_iff]; omega
        unfold tileFactor
        rw [if_neg (notand_of_notright k1), if_neg (notand_of_notright k2),
          if_neg (notand_of_notright k3), if_neg (notand_of_notright k5),
          if_neg (notand_of_notright k6), if_neg (notand_of_notright k7),
          if_neg (notand_of_notright k8)]
        cases lc
        · cases lr
          · -- interior corner: weight rY · rX
            have hcond : (¬(false : Bool) ∨ ¬(false : Bool)) ∧
                inTileBorder p p (tw - p) (th - p) tw th x y := ⟨by decide, m4⟩
            rw [if_pos hcond, wtbW_BR, sideWeight_high fc tw p x hxH htw,
              sideWeight_high fr th p y hyH hth]
            norm_num
            ring
          · -- last row: weight rX · (rY + lY) = rX
            have hcond : (¬(false : Bool) ∨ ¬(true : Bool)) ∧
                inTileBorder p p (tw - p) (th - p) tw th x y := ⟨by decide, m4⟩
            rw [if_pos hcond, wtbW_BR, sideWeight_high fc tw p x hxH htw,
              sideWeight_high_last fr th p y hyH hth]
            norm_num
            have hsum := ramp_compl ((p : ℚ) - 4) ((th : ℚ) - 2 - (y : ℚ))
              ((y : ℚ) - (th : ℚ) + (p : ℚ) - 2) (castNe4 p h4) (by ring)
            linear_combination (clamp (((tw : ℚ) - 2 - (x : ℚ)) / ((p : ℚ) - 4)) 0 1) * hsum
        · cases lr
          · -- last column: weight rY · (rX + lX) = rY
            have hcond : (¬(true : Bool) ∨ ¬(false : Bool)) ∧
                inTileBorder p p (tw - p) (th - p) tw th x y := ⟨by decide, m4⟩
            rw [if_pos hcond, wtbW_BR, sideWeight_high_last fc tw p x hxH htw,
              sideWeight_high fr th p y hyH hth]
            norm_num
            have hsum := ramp_compl ((p : ℚ) - 4) ((tw : ℚ) - 2 - (x : ℚ))
              ((x : ℚ) - (tw : ℚ) + (p : ℚ) - 2) (castNe4 p h4) (by ring)
            linear_combination (clamp (((th : ℚ) - 2 - (y : ℚ)) / ((p : ℚ) - 4)) 0 1) * hsum
          · -- last column and last row: block skipped, weight 1
            have hncond : ¬((¬(true : Bool) ∨ ¬(true : Bool)) ∧
                inTileBorder p p (tw - p) (th - p) tw th x y) :=
              fun h => by rcases h.1 with hh | hh <;> exact hh rfl
            rw [if_neg hncond, sideWeight_high_last fc tw p x hxH htw,
              sideWeight_high_last fr th p y hyH hth]
            norm_num

/-! ### One-dimensional coverage: a chain of overlapping ranges has total
side weight 1 at every covered coordinate -/

theorem rangeChain_props (p W b : ℤ) (hp : 0 ≤ p) (rs : List Range)
    (h : RangeChain p W b rs) :
    ∀ r ∈ rs, b ≤ r.rbegin ∧ 2 * p < r.rend - r.rbegin ∧ r.rend ≤ W := by
  induction h with
  | single b0 hw =>
    intro r hr
    rcases List.mem_singleton.mp hr with rfl
    exact ⟨le_refl _, by show 2 * p < W - b0; omega, le_refl _⟩
  | cons b0 e rest hw heW hrest IH =>
    intro r hr
    rcases List.mem_cons.mp hr with rfl | hr2
    · exact ⟨le_refl _, by show 2 * p < e - b0; omega, by show e ≤ W; omega⟩
    · have hmem := IH r hr2
      refine ⟨by omega, hmem.2.1, hmem.2.2⟩

theorem chainWeightSum_before (p W b : ℤ) (hp : 0 ≤ p) (rs : List Range)
    (h : RangeChain p W b rs) (x : ℤ) (hx : x < b) :
    chainWeightSum p W rs x = 0 := by
  induction h with
  | single b0 hw =>
    simp only [chainWeightSum, List.map, List.sum_cons, List.sum_nil]
    rw [if_neg (by rintro ⟨h1, h2⟩; omega)]
    ring
  | cons b0 e rest hw heW hrest IH =>
    simp only [chainWeightSum, List.map, List.sum_cons] at IH ⊢
    rw [if_neg (by rintro ⟨h1, h2⟩; omega)]
    rw [IH (by omega)]
    ring

theorem chainWeightSum_eq (p W b : ℤ) (hp : 0 ≤ p) (hD : p = 0 ∨ p ≠ 4)
    (rs : List Range) (h : RangeChain p W b rs) :
    0 ≤ b → ∀ x, b ≤ x → x < W →
      chainWeightSum p W rs x =
        if 0 < b ∧ x < b + p then
          clamp (((x : ℚ) - (b : ℚ) - 2) / ((p : ℚ) - 4)) 0 1
        else 1 := by
  induction h with
  | single b0 hw =>
    intro hb x hbx hxW
    simp only [chainWeightSum, List.map, List.sum_cons, List.sum_nil, add_zero]
    rw [if_pos ⟨hbx, hxW⟩]
    simp only [decide_True, Range.width]
    rcases eq_or_ne b0 0 with rfl | hb0
    · rw [decide_eq_true (show (0 : ℤ) = 0 from rfl)]
      rw [if_neg (by rintro ⟨h1, h2⟩; omega)]
      rcases lt_or_le x p with hxp | hxp
      · exact sideWeight_first_low true (W - 0) p (x - 0) (by omega) (by omega)
      · rcases lt_or_le x (W - p) with hxm | hxm
        · exact sideWeight_mid true true (W - 0) p (x - 0) (by omega) (by omega)
        · exact sideWeight_high_last true (W - 0) p (x - 0) (by omega) (by omega)
    · rw [decide_eq_false hb0]
      rcases lt_or_le x (b0 + p) with hxp | hxp
      · rw [if_pos ⟨by omega, hxp⟩, sideWeight_low true (W - b0) p (x - b0) (by omega)]
        congr 1
        push_cast
        ring
      · rw [if_neg (by rintro ⟨h1, h2⟩; omega)]
        rcases lt_or_le x (W - p) with hxm | hxm
        · exact sideWeight_mid false true (W - b0) p (x - b0) (by omega) (by omega)
        · exact sideWeight_high_last false (W - b0) p (x - b0) (by omega) (by omega)
  | cons b0 e rest hw heW hrest IH =>
    intro hb x hbx hxW
    have hep : b0 + p < e - p := by omega
    simp only [chainWeightSum, List.map, List.sum_cons] at IH ⊢
    rcases lt_or_le x (e - p) with hx1 | hx2
    · -- x is covered by the head range only
      have hrest0 : (rest.map (fun r => if r.rbegin ≤ x ∧ x < r.rend then
          sideWeight (decide (r.rbegin = 0)) (decide (r.rend = W)) r.width p (x - r.rbegin)
        else 0)).sum = 0 := by
        have := chainWeightSum_before p W (e - p) hp rest hrest x hx1
        simpa [chainWeightSum] using this
      rw [hrest0, add_zero, if_pos ⟨hbx, by omega⟩, decide_eq_false (show ¬(e = W) by omega)]
      simp only [Range.width]
      rcases lt_or_le x (b0 + p) with hxp | hxp
      · rcases eq_or_ne b0 0 with rfl | hb0
        · rw [decide_eq_true (show (0 : ℤ) = 0 from rfl)]
          rw [if_neg (by rintro ⟨h1, h2⟩; omega)]
          exact sideWeight_first_low false (e - 0) p (x - 0) (by omega) (by omega)
        · rw [decide_eq_false hb0, if_pos ⟨by omega, hxp⟩,
            sideWeight_low false (e - b0) p (x - b0) (by omega)]
          congr 1
          push_cast
          ring
      · rw [if_neg (by rintro ⟨h1, h2⟩; omega)]
        exact sideWeight_mid (decide (b0 = 0)) false (e - b0) p (x - b0) (by omega) (by omega)
    · -- x is in the overlap band or beyond the head range
      have hp0 : 0 < p → p ≠ 4 := by
        intro hpos
        rcases hD with rfl | h4
        · omega
        · exact h4
      have hIH := IH (by omega) x (by omega) hxW
      rcases lt_or_le x e with hxe | hxe
      · -- overlap band: head ramps down, next range ramps up, total 1
        have hpos : 0 < p := by omega
        have h4 : p ≠ 4 := hp0 hpos
        rw [if_pos ⟨by omega, hxe⟩, decide_eq_false (show ¬(e = W) by omega)]
        rw [if_pos ⟨by omega, by omega⟩] at hIH
        rw [hIH]
        simp only [Range.width]
        rw [sideWeight_high (decide (b0 = 0)) (e - b0) p (x - b0) (by omega) (by omega)]
        rw [if_neg (by rintro ⟨h1, h2⟩; omega)]
        have harg1 : (((e - b0 : ℤ) : ℚ) - 2 - ((x - b0 : ℤ) : ℚ)) / ((p : ℚ) - 4)
            = ((e : ℚ) - 2 - (x : ℚ)) / ((p : ℚ) - 4) := by
          congr 1
          push_cast
          ring
        have harg2 : ((x : ℚ) - ((e - p : ℤ) : ℚ) - 2) / ((p : ℚ) - 4)
            = ((x : ℚ) - (e : ℚ) + (p : ℚ) - 2) / ((p : ℚ) - 4) := by
          congr 1
          push_cast
          ring
        rw [harg1, harg2]
        have hsum := ramp_compl ((p : ℚ) - 4) ((e : ℚ) - 2 - (x : ℚ))
          ((x : ℚ) - (e : ℚ) + (p : ℚ) - 2) (castNe4 p h4) (by ring)
        linarith
      · -- beyond the head range: the tail already sums to 1
        rw [if_neg (by rintro ⟨h1, h2⟩; omega), if_neg (by rintro ⟨h1, h2⟩; omega) ] at *
        rw [hIH]
        ring

theorem chainWeightSum_covers (p W : ℤ) (hp : 0 ≤ p) (hD : p = 0 ∨ p ≠ 4)
    (rs : List Range) (h : RangeChain p W 0 rs) (x : ℤ) (hx0 : 0 ≤ x) (hxW : x < W) :
    chainWeightSum p W rs x = 1 := by
  have := chainWeightSum_eq p W 0 hp hD rs h (le_refl 0) x hx0 hxW
  rwa [if_neg (by rintro ⟨h1, h2⟩; omega)] at this

/-! ### Assembling the two-dimensional merge -/

theorem list_sum_flatMap {α β : Type} [AddCommMonoid β] (l : List α) (g : α → List β) :
    (l.flatMap g).sum = (l.map (fun a => (g a).sum)).sum := by
  induction l with
  | nil => simp
  | cons hd tl IH => simp [List.flatMap_cons, List.sum_append, IH]

theorem downscaleROI_one (roi : ROI) : downscaleROI roi 1 = roi := by
  rcases roi with ⟨⟨a, b⟩, ⟨c, d⟩⟩
  unfold downscaleROI divideRoundUp
  simp only [ROI.mk.injEq, Range.mk.injEq]
  refine ⟨⟨by omega, by omega⟩, by omega, by omega⟩

/-- Pointwise effect of `addTileMapWeighted` at downscale 1: outside the ROI
the output pixel is untouched; inside, the weighted tile pixel is added. -/
theorem addTileMapWeighted_at (W H : ℤ) (tp : TileParams) (roi : ROI) (m out : ImgQ)
    (x y : ℤ) :
    (addTileMapWeighted W H tp roi 1 m out).at_ y x
      = out.at_ y x +
        (if roi.x.rbegin ≤ x ∧ x < roi.x.rend ∧ roi.y.rbegin ≤ y ∧ y < roi.y.rend then
          (applyTileWeights (decide (roi.x.rbegin = 0)) (decide (roi.x.rend = W))
              (decide (roi.y.rbegin = 0)) (decide (roi.y.rend = H))
              roi.width roi.height tp.padding m).at_ (y - roi.y.rbegin) (x - roi.x.rbegin)
        else 0) := by
  unfold addTileMapWeighted
  rw [downscaleROI_one]
  have hpad : tp.padding / 1 = tp.padding := by omega
  rw [hpad]
  by_cases hin : roi.x.rbegin ≤ x ∧ x < roi.x.rend ∧ roi.y.rbegin ≤ y ∧ y < roi.y.rend
  · rw [if_pos hin]
    simp only [ROI.width, ROI.height, Range.width]
    rw [if_pos ⟨hin.1, hin.2.1, hin.2.2.1, hin.2.2.2⟩]
  · rw [if_neg hin, add_zero]
    simp only [ROI.width, ROI.height, Range.width]
    rw [if_neg (by tauto)]

/-- Folding `addTileMapWeighted` over a list of constant tiles adds, at every
pixel, the sum of the weighted tile contributions. -/
theorem foldl_addTile_at (W H : ℤ) (tp : TileParams) (v : ℚ) (tiles : List ROI)
    (z : ImgQ) (x y : ℤ) :
    ((tiles.foldl
        (fun out roi =>
          addTileMapWeighted W H tp roi 1 (constImg roi.width roi.height v) out) z).at_ y x)
      = z.at_ y x +
        (tiles.map (fun roi =>
          if roi.x.rbegin ≤ x ∧ x < roi.x.rend ∧ roi.y.rbegin ≤ y ∧ y < roi.y.rend then
            (applyTileWeights (decide (roi.x.rbegin = 0)) (decide (roi.x.rend = W))
                (decide (roi.y.rbegin = 0)) (decide (roi.y.rend = H))
                roi.width roi.height tp.padding (constImg roi.width roi.height v)).at_
              (y - roi.y.rbegin) (x - roi.x.rbegin)
          else 0)).sum := by
  induction tiles generalizing z with
  | nil => simp
  | cons hd tl IH =>
    rw [List.foldl_cons, IH, addTileMapWeighted_at, List.map_cons, List.sum_cons]
    ring

theorem constImg_at (w h : ℤ) (v : ℚ) (x y : ℤ) : (constImg w h v).at_ y x = v := rfl
theorem constImg_w (w h : ℤ) (v : ℚ) : (constImg w h v).w = w := rfl
theorem constImg_h (w h : ℤ) (v : ℚ) : (constImg w h v).h = h := rfl

/-- C1 (amended): for a grid tile decomposition fully covering the image with
`0 ≤ p` and `2p` less than every tile dimension, and whose margin-adjusted
ramp denominators are nonzero (`p ≠ 4` and tile width/height minus `2p ≠ 4`,
or `p = 0`), merging tiles of the constant map `v` through
`addTileMapWeighted` yields `v` at every image pixel — the blending weights
sum to exactly 1. -/
theorem mergeConstTiles_weights_sum_to_one
    (imageWidth imageHeight p bufW bufH : ℤ) (v : ℚ) (cols rows : List Range)
    (hp : 0 ≤ p)
    (hcols : RangeChain p imageWidth 0 cols)
    (hrows : RangeChain p imageHeight 0 rows)
    (hD : p = 0 ∨ (p ≠ 4 ∧ (∀ r ∈ cols, r.width - 2 * p ≠ 4) ∧
      (∀ r ∈ rows, r.width - 2 * p ≠ 4)))
    (x y : ℤ) (hx0 : 0 ≤ x) (hx1 : x < imageWidth) (hy0 : 0 ≤ y) (hy1 : y < imageHeight) :
    (mergeConstTiles imageWidth imageHeight ⟨bufW, bufH, p⟩ v cols rows).at_ y x = v := by
  have hD1 : p = 0 ∨ p ≠ 4 := by rcases hD with h | ⟨h4, -, -⟩; exact Or.inl h; exact Or.inr h4
  have hchainX := chainWeightSum_covers p imageWidth hp hD1 cols hcols x hx0 hx1
  have hchainY := chainWeightSum_covers p imageHeight hp hD1 rows hrows y hy0 hy1
  unfold mergeConstTiles tileGrid
  rw [foldl_addTile_at]
  have hz : (zeroImg imageWidth imageHeight).at_ y x = 0 := rfl
  rw [hz, zero_add, List.map_flatMap, list_sum_flatMap]
  have hcol : ∀ c ∈ cols,
      ((List.map (fun roi : ROI =>
          if roi.x.rbegin ≤ x ∧ x < roi.x.rend ∧ roi.y.rbegin ≤ y ∧ y < roi.y.rend then
            (applyTileWeights (decide (roi.x.rbegin = 0)) (decide (roi.x.rend = imageWidth))
                (decide (roi.y.rbegin = 0)) (decide (roi.y.rend = imageHeight))
                roi.width roi.height (TileParams.mk bufW bufH p).padding
                (constImg roi.width roi.height v)).at_
              (y - roi.y.rbegin) (x - roi.x.rbegin)
          else 0)
        (List.map (fun r => (⟨c, r⟩ : ROI)) rows)).sum)
      = (if c.rbegin ≤ x ∧ x < c.rend then
          v * sideWeight (decide (c.rbegin = 0)) (decide (c.rend = imageWidth))
            c.width p (x - c.rbegin)
        else 0) := by
    intro c hc
    have hcprops := rangeChain_props p imageWidth 0 hp cols hcols c hc
    rw [List.map_map]
    have hrow : ∀ r ∈ rows,
        ((fun roi : ROI =>
          if roi.x.rbegin ≤ x ∧ x < roi.x.rend ∧ roi.y.rbegin ≤ y ∧ y < roi.y.rend then
            (applyTileWeights (decide (roi.x.rbegin = 0)) (decide (roi.x.rend = imageWidth))
                (decide (roi.y.rbegin = 0)) (decide (roi.y.rend = imageHeight))
                roi.width roi.height (TileParams.mk bufW bufH p).padding
                (constImg roi.width roi.height v)).at_
              (y - roi.y.rbegin) (x - roi.x.rbegin)
          else 0) ∘ (fun r => (⟨c, r⟩ : ROI))) r
        = (if c.rbegin ≤ x ∧ x < c.rend then
            v * sideWeight (decide (c.rbegin = 0)) (decide (c.rend = imageWidth))
              c.width p (x - c.rbegin)
          else 0) *
          (if r.rbegin ≤ y ∧ y < r.rend then
            sideWeight (decide (r.rbegin = 0)) (decide (r.rend = imageHeight))
              r.width p (y - r.rbegin)
          else 0) := by
      intro r hr
      have hrprops := rangeChain_props p imageHeight 0 hp rows hrows r hr
      simp only [Function.comp]
      by_cases hxc : c.rbegin ≤ x ∧ x < c.rend
      · by_cases hyr : r.rbegin ≤ y ∧ y < r.rend
        · rw [if_pos ⟨hxc.1, hxc.2, hyr.1, hyr.2⟩, if_pos hxc, if_pos hyr]
          rw [applyTileWeights_at_factor, constImg_at, constImg_w, constImg_h]
          have htile : tileFactor (decide ((⟨c, r⟩ : ROI).x.rbegin = 0))
              (decide ((⟨c, r⟩ : ROI).x.rend = imageWidth))
              (decide ((⟨c, r⟩ : ROI).y.rbegin = 0))
              (decide ((⟨c, r⟩ : ROI).y.rend = imageHeight))
              (⟨c, r⟩ : ROI).width (⟨c, r⟩ : ROI).height (TileParams.mk bufW bufH p).padding
              (⟨c, r⟩ : ROI).width (⟨c, r⟩ : ROI).height (x - (⟨c, r⟩ : ROI).x.rbegin)
              (y - (⟨c, r⟩ : ROI).y.rbegin)
              = sideWeight (decide ((⟨c, r⟩ : ROI).x.rbegin = 0))
                  (decide ((⟨c, r⟩ : ROI).x.rend = imageWidth))
                  (⟨c, r⟩ : ROI).width p (x - (⟨c, r⟩ : ROI).x.rbegin) *
                sideWeight (decide ((⟨c, r⟩ : ROI).y.rbegin = 0))
                  (decide ((⟨c, r⟩ : ROI).y.rend = imageHeight))
                  (⟨c, r⟩ : ROI).height p (y - (⟨c, r⟩ : ROI).y.rbegin) := by
            apply tileFactor_eq_sideWeights
            · exact hp
            · show 2 * p < c.rend - c.rbegin
              exact hcprops.2.1
            · show 2 * p < r.rend - r.rbegin
              exact hrprops.2.1
            · rcases hD with h0 | ⟨h4, hcol4, hrow4⟩
              · exact Or.inl h0
              · exact Or.inr ⟨h4, hcol4 c hc, hrow4 r hr⟩
            · show 0 ≤ x - c.rbegin
              omega
            · show x - c.rbegin < c.rend - c.rbegin
              omega
            · show 0 ≤ y - r.rbegin
              omega
            · show y - r.rbegin < r.rend - r.rbegin
              omega
          rw [htile]
          simp only [ROI.width, ROI.height, Range.width]
          ring
        · rw [if_neg (by tauto), if_neg hyr, mul_zero]
      · rw [if_neg (by tauto), if_neg hxc, zero_mul]
    rw [List.map_congr_left hrow, List.sum_map_mul_left]
    have hsumY : (List.map (fun r : Range =>
        if r.rbegin ≤ y ∧ y < r.rend then
          sideWeight (decide (r.rbegin = 0)) (decide (r.rend = imageHeight))
            r.width p (y - r.rbegin)
        else 0) rows).sum = 1 := hchainY
    rw [hsumY, mul_one]
  rw [List.map_congr_left hcol]
  have hpull : ∀ c ∈ cols,
      (if c.rbegin ≤ x ∧ x < c.rend then
        v * sideWeight (decide (c.rbegin = 0)) (decide (c.rend = imageWidth))
          c.width p (x - c.rbegin)
      else 0)
      = v * (if c.rbegin ≤ x ∧ x < c.rend then
          sideWeight (decide (c.rbegin = 0)) (decide (c.rend = imageWidth))
            c.width p (x - c.rbegin)
        else 0) := by
    intro c hc
    by_cases hxc : c.rbegin ≤ x ∧ x < c.rend
    · rw [if_pos hxc, if_pos hxc]
    · rw [if_neg hxc, if_neg hxc, mul_zero]
  rw [List.map_congr_left hpull, List.sum_map_mul_left]
  have hsumX : (List.map (fun c : Range =>
      if c.rbegin ≤ x ∧ x < c.rend then
        sideWeight (decide (c.rbegin = 0)) (decide (c.rend = imageWidth))
          c.width p (x - c.rbegin)
      else 0) cols).sum = 1 := hchainX
  rw [hsumX, mul_one]

/-- C1 witness: a two-column decomposition of a 34×21 image with padding 8
(tile sizes 21×21), evaluated in the overlap band. -/
theorem mergeConstTiles_weights_sum_to_one_witness :
    RangeChain 8 34 0 [⟨0, 21⟩, ⟨13, 34⟩] ∧ RangeChain 8 21 0 [⟨0, 21⟩] ∧
    (mergeConstTiles 34 21 ⟨1024, 1024, 8⟩ 1 [⟨0, 21⟩, ⟨13, 34⟩] [⟨0, 21⟩]).at_ 10 16 = 1 := by
  have hc : RangeChain 8 34 0 [⟨0, 21⟩, ⟨13, 34⟩] :=
    RangeChain.cons 0 21 [⟨13, 34⟩] (by omega) (by omega) (RangeChain.single 13 (by omega))
  have hr : RangeChain 8 21 0 [⟨0, 21⟩] := RangeChain.single 0 (by omega)
  refine ⟨hc, hr, ?_⟩
  exact mergeConstTiles_weights_sum_to_one 34 21 8 1024 1024 1 [⟨0, 21⟩, ⟨13, 34⟩] [⟨0, 21⟩]
    (by norm_num) hc hr (Or.inr ⟨by norm_num, by decide, by decide⟩)
    16 10 (by norm_num) (by norm_num) (by norm_num) (by norm_num)

/-- C1 counterexample: with padding `p = 4` — allowed by the claim, since
`0 ≤ 4 < min(12, 9)/2 = 4.5` for this fully covering two-tile decomposition
of a 20×9 image — the margin-adjusted ramp denominator `p - 2·margin` is
zero, every blend-band ramp divides by zero (0.0/0.0 = NaN in the C++ code at
the band's center line, 0 in this exact-arithmetic model), and the merged
weight at interior pixel (x, y) = (10, 4) is 0, not 1. -/
theorem mergeWeights_padding4_not_one :
    RangeChain 4 20 0 [⟨0, 12⟩, ⟨8, 20⟩] ∧ RangeChain 4 9 0 [⟨0, 9⟩] ∧
    (0 : ℤ) ≤ 4 ∧ 2 * 4 < (12 : ℤ) ∧ 2 * 4 < (9 : ℤ) ∧
    (mergeConstTiles 20 9 ⟨1024, 1024, 4⟩ 1 [⟨0, 12⟩, ⟨8, 20⟩] [⟨0, 9⟩]).at_ 4 10 = 0 := by
  refine ⟨RangeChain.cons 0 12 [⟨8, 20⟩] (by omega) (by omega)
      (RangeChain.single 8 (by omega)),
    RangeChain.single 0 (by omega), by norm_num, by norm_num, by norm_num, ?_⟩
  norm_num [mergeConstTiles, tileGrid, List.flatMap, addTileMapWeighted, downscaleROI,
    divideRoundUp, applyTileWeights, weightTileBorder, inTileBorder, weightTileBorderWeight,
    clamp, intersect, constImg, zeroImg, ROI.width, ROI.height, Range.width, List.foldl]

/-- The weighting pipeline of a tile that is first and last on both axes (a
single full-size tile) skips all eight corner/edge blocks. -/
theorem applyTileWeights_all_true (tw th p : ℤ) (m : ImgQ) :
    applyTileWeights true true true true tw th p m = m := by
  unfold applyTileWeights
  norm_num

/-! ### The untiled fast path versus the single-tile merge path (C3) -/

theorem fullTile_params (W H p : ℤ) (m : ImgQ) (hW : 0 < W) (hH : 0 < H) (hp : 0 ≤ p) :
    getTileParamsFromMetadata (fullSizeTileFile W H p m).meta = Except.ok ⟨W, H, p⟩ := by
  unfold getTileParamsFromMetadata fullSizeTileFile
  simp only [Option.getD_some]
  rw [if_neg (by omega)]

theorem fullTile_roi (W H p : ℤ) (m : ImgQ) (hW : 0 < W) (hH : 0 < H) :
    getRoiFromMetadata (fullSizeTileFile W H p m).meta = Except.ok ⟨⟨0, W⟩, ⟨0, H⟩⟩ := by
  unfold getRoiFromMetadata fullSizeTileFile
  simp only [Option.getD_some]
  rw [if_neg (by omega)]

/-- Merging a single full-size tile through the tile-merge path copies the
map unchanged into the zero-initialized output: all weighting blocks are
skipped and every pixel keeps weight 1. -/
theorem readMapFromTiles_single_full (W H p : ℤ) (m : ImgQ)
    (hW : 0 < W) (hH : 0 < H) (hp : 0 ≤ p) (x y : ℤ)
    (hx0 : 0 ≤ x) (hx1 : x < W) (hy0 : 0 ≤ y) (hy1 : y < H) :
    Except.map (fun o => o.at_ y x)
        (readMapFromTiles W H 1 1 [fullSizeTileFile W H p m])
      = Except.ok (m.at_ y x) := by
  unfold readMapFromTiles
  dsimp only
  rw [fullTile_params W H p m hW hH hp]
  have hrois : getRoisFromTiles [fullSizeTileFile W H p m] = Except.ok [⟨⟨0, W⟩, ⟨0, H⟩⟩] := by
    unfold getRoisFromTiles
    rw [fullTile_roi W H p m hW hH]
    rfl
  rw [hrois]
  simp only [List.zip, List.zipWith, List.foldl]
  have hint : intersect ⟨⟨0, W⟩, ⟨0, H⟩⟩ ⟨⟨0, W⟩, ⟨0, H⟩⟩ = ⟨⟨0, W⟩, ⟨0, H⟩⟩ := by
    unfold intersect
    simp
  rw [hint]
  rw [if_neg (show ¬ (ROI.isEmpty ⟨⟨0, W⟩, ⟨0, H⟩⟩) by
    simp only [ROI.isEmpty]; push_neg; omega)]
  simp only [fullSizeTileFile, Except.map, max_self, mul_one]
  have hds : divideRoundUp W 1 = W := by unfold divideRoundUp; omega
  have hds2 : divideRoundUp H 1 = H := by unfold divideRoundUp; omega
  rw [hds, hds2, addTileMapWeighted_at]
  rw [if_pos (by dsimp only; exact ⟨hx0, hx1, hy0, hy1⟩)]
  dsimp only
  rw [show (decide ((0:ℤ) = 0)) = true from by decide,
    decide_eq_true (show W = W from rfl), decide_eq_true (show H = H from rfl),
    applyTileWeights_all_true]
  show Except.ok (0 + m.at_ (y - 0) (x - 0)) = _
  rw [zero_add, sub_zero, sub_zero]

/-- C3: for a map of full image size, reading it through the untiled fast
path of `readDepthSimMap` returns it directly, and merging the same map as a
single full-image-ROI tile through `addTileMapWeighted` yields exactly the
same pixel values: every corner/edge weighting block is skipped (the tile is
first and last on both axes), every pixel keeps weight 1, and the map is
copied unchanged into the zero-initialized output. -/
theorem readDepthSimMap_untiled_paths_agree
    (imageWidth imageHeight p : ℤ) (dm sm : ImgQ) (depthTiles simTiles : List TileFile)
    (hW : 0 < imageWidth) (hH : 0 < imageHeight) (hp : 0 ≤ p)
    (x y : ℤ) (hx0 : 0 ≤ x) (hx1 : x < imageWidth) (hy0 : 0 ≤ y) (hy1 : y < imageHeight) :
    readDepthSimMap imageWidth imageHeight 1 1 (some dm) (some sm) depthTiles simTiles
        = Except.ok (dm, sm) ∧
    Except.map (fun o => o.at_ y x)
        (readMapFromTiles imageWidth imageHeight 1 1
          [fullSizeTileFile imageWidth imageHeight p dm])
      = Except.ok (dm.at_ y x) :=
  ⟨rfl, readMapFromTiles_single_full imageWidth imageHeight p dm hW hH hp x y hx0 hx1 hy0 hy1⟩

/-- C3 witness: a 4×3 constant map through both paths at pixel (2, 1). -/
theorem readDepthSimMap_untiled_paths_agree_witness :
    readDepthSimMap 4 3 1 1 (some (constImg 4 3 7)) (some (constImg 4 3 5)) [] []
        = Except.ok (constImg 4 3 7, constImg 4 3 5) ∧
    Except.map (fun o => o.at_ 1 2) (readMapFromTiles 4 3 1 1 [fullSizeTileFile 4 3 1 (constImg 4 3 7)])
      = Except.ok ((constImg 4 3 7).at_ 1 2) :=
  readDepthSimMap_untiled_paths_agree 4 3 1 (constImg 4 3 7) (constImg 4 3 5) [] []
    (by norm_num) (by norm_num) (by norm_num) 2 1
    (by norm_num) (by norm_num) (by norm_num) (by norm_num)

/-! ### Boundary-side weights (C6) -/

/-- A pixel lying outside every non-boundary side's blend band is touched by
none of the eight weighting blocks: its total weight factor is 1. -/
theorem tileFactor_interior_one (fc lc fr lr : Bool) (tw th p mw mh x y : ℤ)
    (hxlow : p ≤ x ∨ fc = true) (hxhigh : x < tw - p ∨ lc = true)
    (hylow : p ≤ y ∨ fr = true) (hyhigh : y < th - p ∨ lr = true) :
    tileFactor fc lc fr lr tw th p mw mh x y = 1 := by
  unfold tileFactor
  rw [if_neg (fun h => by
      obtain ⟨hflag, hmem⟩ := h
      rw [inTileBorder_iff] at hmem
      rcases hflag with hf | hf
      · rcases hxlow with hxx | hxx
        · omega
        · exact hf hxx
      · rcases hylow with hyy | hyy
        · omega
        · exact hf hyy),
    if_neg (fun h => by
      obtain ⟨hflag, hmem⟩ := h
      rw [inTileBorder_iff] at hmem
      rcases hflag with hf | hf
      · rcases hxlow with hxx | hxx
        · omega
        · exact hf hxx
      · rcases hyhigh with hyy | hyy
        · omega
        · exact hf hyy),
    if_neg (fun h => by
      obtain ⟨hflag, hmem⟩ := h
      rw [inTileBorder_iff] at hmem
      rcases hflag with hf | hf
      · rcases hxhigh with hxx | hxx
        · omega
        · exact hf hxx
      · rcases hylow with hyy | hyy
        · omega
        · exact hf hyy),
    if_neg (fun h => by
      obtain ⟨hflag, hmem⟩ := h
      rw [inTileBorder_iff] at hmem
      rcases hflag with hf | hf
      · rcases hxhigh with hxx | hxx
        · omega
        · exact hf hxx
      · rcases hyhigh with hyy | hyy
        · omega
        · exact hf hyy),
    if_neg (fun h => by
      obtain ⟨hflag, hmem⟩ := h
      rw [inTileBorder_iff] at hmem
      rcases hylow with hyy | hyy
      · omega
      · exact hflag hyy),
    if_neg (fun h => by
      obtain ⟨hflag, hmem⟩ := h
      rw [inTileBorder_iff] at hmem
      rcases hyhigh with hyy | hyy
      · omega
      · exact hflag hyy),
    if_neg (fun h => by
      obtain ⟨hflag, hmem⟩ := h
      rw [inTileBorder_iff] at hmem
      rcases hxlow with hxx | hxx
      · omega
      · exact hflag hxx),
    if_neg (fun h => by
      obtain ⟨hflag, hmem⟩ := h
      rw [inTileBorder_iff] at hmem
      rcases hxhigh with hxx | hxx
      · omega
      · exact hflag hxx)]
  norm_num

/-- C6 (amended): on a tile side touching the image boundary, no weight ramp
is applied: the edge-band call for that side is skipped and the adjacent
corner alphas are forced to 1, so a padding pixel of a boundary side keeps
weight 1 — provided it does not also lie in the blend band of a
non-boundary side (there, only the interior side's ramp applies). -/
theorem addTileMapWeighted_boundary_sides_weight_one
    (W H zw zh : ℤ) (tp : TileParams) (roi : ROI) (m : ImgQ) (x y : ℤ)
    (hx0 : 0 ≤ x) (hx1 : x < roi.width) (hy0 : 0 ≤ y) (hy1 : y < roi.height)
    (hxlow : tp.padding ≤ x ∨ roi.x.rbegin = 0)
    (hxhigh : x < roi.width - tp.padding ∨ roi.x.rend = W)
    (hylow : tp.padding ≤ y ∨ roi.y.rbegin = 0)
    (hyhigh : y < roi.height - tp.padding ∨ roi.y.rend = H) :
    (addTileMapWeighted W H tp roi 1 m (zeroImg zw zh)).at_
        (roi.y.rbegin + y) (roi.x.rbegin + x)
      = m.at_ y x := by
  rw [addTileMapWeighted_at]
  rw [if_pos (by
    simp only [ROI.width, ROI.height, Range.width] at hx1 hy1
    exact ⟨by omega, by omega, by omega, by omega⟩)]
  have hzero : (zeroImg zw zh).at_ (roi.y.rbegin + y) (roi.x.rbegin + x) = 0 := rfl
  rw [hzero, zero_add]
  have hyc : roi.y.rbegin + y - roi.y.rbegin = y := by ring
  have hxc : roi.x.rbegin + x - roi.x.rbegin = x := by ring
  rw [hyc, hxc, applyTileWeights_at_factor]
  rw [tileFactor_interior_one _ _ _ _ _ _ _ _ _ _ _
    (by rcases hxlow with h | h
        · exact Or.inl h
        · exact Or.inr (decide_eq_true h))
    (by rcases hxhigh with h | h
        · exact Or.inl (by simp only [ROI.width, Range.width] at h ⊢; omega)
        · exact Or.inr (decide_eq_true h))
    (by rcases hylow with h | h
        · exact Or.inl h
        · exact Or.inr (decide_eq_true h))
    (by rcases hyhigh with h | h
        · exact Or.inl (by simp only [ROI.height, Range.width] at h ⊢; omega)
        · exact Or.inr (decide_eq_true h)), mul_one]

/-- C6 witness: a first-column tile (ROI `[0,20)×[4,24)` in a 40×40 image,
padding 8): the boundary-side padding pixel at local `(0, 10)` (outside the
interior sides' bands) keeps its value. -/
theorem addTileMapWeighted_boundary_sides_weight_one_witness :
    (addTileMapWeighted 40 40 ⟨1024, 1024, 8⟩ ⟨⟨0, 20⟩, ⟨4, 24⟩⟩ 1 (constImg 20 20 1)
        (zeroImg 40 40)).at_ (4 + 10) (0 + 0) = (constImg 20 20 1).at_ 10 0 :=
  addTileMapWeighted_boundary_sides_weight_one 40 40 40 40 ⟨1024, 1024, 8⟩
    ⟨⟨0, 20⟩, ⟨4, 24⟩⟩ (constImg 20 20 1) 0 10
    (by norm_num) (by norm_num [ROI.width, Range.width]) (by norm_num)
    (by norm_num [ROI.height, Range.width])
    (Or.inr (by norm_num)) (Or.inl (by norm_num [ROI.width, Range.width]))
    (Or.inl (by norm_num)) (Or.inl (by norm_num [ROI.height, Range.width]))

set_option maxHeartbeats 1000000 in
/-- C6 counterexample: the same first-column tile with padding 8 holds the
constant 1; its boundary-side (left) padding pixel at local `(0, 4)` — which
also lies in the top (interior) side's blend band — is merged with weight
1/2, not 1: padding pixels on boundary sides are not all fully
authoritative. -/
theorem addTileMapWeighted_boundary_padding_not_one :
    (addTileMapWeighted 40 40 ⟨1024, 1024, 8⟩ ⟨⟨0, 20⟩, ⟨4, 24⟩⟩ 1 (constImg 20 20 1)
        (zeroImg 40 40)).at_ 8 0 = 1 / 2 := by
  norm_num [addTileMapWeighted, downscaleROI, divideRoundUp, applyTileWeights,
    weightTileBorder, inTileBorder, weightTileBorderWeight, clamp, constImg, zeroImg,
    ROI.width, ROI.height, Range.width]

/-! ### `readMapFromTiles` error handling (C2, C8) -/

/-- C8: for a camera with zero tile files, `readMapFromTiles` returns
successfully with the output map resized to the full downscaled image
dimensions (ceiling division by `max(scale,1)·step`) and every pixel 0 — the
invalid-depth sentinel everywhere, not an error. -/
theorem readMapFromTiles_zero_tiles_all_invalid (imageWidth imageHeight scale step : ℤ) :
    readMapFromTiles imageWidth imageHeight scale step []
      = Except.ok (zeroImg (divideRoundUp imageWidth (max scale 1 * step))
          (divideRoundUp imageHeight (max scale 1 * step)))
    ∧ (zeroImg (divideRoundUp imageWidth (max scale 1 * step))
          (divideRoundUp imageHeight (max scale 1 * step))).w
        = divideRoundUp imageWidth (max scale 1 * step)
    ∧ (zeroImg (divideRoundUp imageWidth (max scale 1 * step))
          (divideRoundUp imageHeight (max scale 1 * step))).h
        = divideRoundUp imageHeight (max scale 1 * step)
    ∧ ∀ x y : ℤ, (zeroImg (divideRoundUp imageWidth (max scale 1 * step))
        (divideRoundUp imageHeight (max scale 1 * step))).at_ y x = 0 :=
  ⟨rfl, rfl, rfl, fun _ _ => rfl⟩

/-- The accumulation loop of `readMapFromTiles` (tiles already validated)
equals the direct fold over the readable, non-empty-ROI tiles. -/
theorem foldl_skip_eq_mergeReadable (imageWidth imageHeight scaleStep : ℤ)
    (tp : TileParams) (pairs : List (ROI × TileFile)) (z : ImgQ) :
    pairs.foldl
      (fun out pr =>
        if (intersect pr.1 ⟨⟨0, imageWidth⟩, ⟨0, imageHeight⟩⟩).isEmpty then out
        else
          match pr.2.content with
          | none => out
          | some tileMap => addTileMapWeighted imageWidth imageHeight tp
              (intersect pr.1 ⟨⟨0, imageWidth⟩, ⟨0, imageHeight⟩⟩) scaleStep tileMap out) z
      = mergeReadableTiles imageWidth imageHeight scaleStep tp z pairs := by
  induction pairs generalizing z with
  | nil => rfl
  | cons hd tl IH =>
    rw [List.foldl_cons]
    unfold mergeReadableTiles
    rw [List.filterMap_cons]
    by_cases hemp : (intersect hd.1 ⟨⟨0, imageWidth⟩, ⟨0, imageHeight⟩⟩).isEmpty
    · simp only [hemp, if_pos, if_true]
      rw [IH]
      rfl
    · rcases hcont : hd.2.content with - | tm
      · simp only [if_neg hemp, hcont]
        rw [IH]
        rfl
      · simp only [if_neg hemp, hcont]
        rw [IH]
        rfl

/-- C2 (amended): when every tile's ROI metadata is valid (and the first
tile's tile-params metadata is valid), `readMapFromTiles` succeeds and
equals the fold over exactly the tiles whose pixel content is readable and
whose ROI meets the image: a tile whose content cannot be read (missing or
corrupt file — `image::readImage` throws inside the `try` block) is logged
and skipped, and the remaining tiles keep accumulating. -/
theorem readMapFromTiles_skips_unreadable_tiles
    (imageWidth imageHeight scale step : ℤ) (f0 : TileFile) (files : List TileFile)
    (tp : TileParams) (rois : List ROI)
    (hparams : getTileParamsFromMetadata f0.meta = Except.ok tp)
    (hrois : getRoisFromTiles (f0 :: files) = Except.ok rois) :
    readMapFromTiles imageWidth imageHeight scale step (f0 :: files)
      = Except.ok (mergeReadableTiles imageWidth imageHeight (max scale 1 * step) tp
          (zeroImg (divideRoundUp imageWidth (max scale 1 * step))
            (divideRoundUp imageHeight (max scale 1 * step)))
          (rois.zip (f0 :: files))) := by
  unfold readMapFromTiles
  dsimp only
  rw [hparams, hrois]
  dsimp only
  rw [foldl_skip_eq_mergeReadable]

/-- C2 witness: two valid-metadata tiles over an 8×8 image, the second with
unreadable content; the merge succeeds and folds only the readable tile. -/
theorem readMapFromTiles_skips_unreadable_tiles_witness :
    readMapFromTiles 8 8 1 1
        [fullSizeTileFile 8 8 1 (constImg 8 8 1),
         { meta := (fullSizeTileFile 8 8 1 (constImg 8 8 1)).meta, content := none }]
      = Except.ok (mergeReadableTiles 8 8 1 ⟨8, 8, 1⟩ (zeroImg 8 8)
          ([⟨⟨0, 8⟩, ⟨0, 8⟩⟩, ⟨⟨0, 8⟩, ⟨0, 8⟩⟩].zip
            [fullSizeTileFile 8 8 1 (constImg 8 8 1),
             { meta := (fullSizeTileFile 8 8 1 (constImg 8 8 1)).meta, content := none }])) := by
  have h := readMapFromTiles_skips_unreadable_tiles 8 8 1 1
    (fullSizeTileFile 8 8 1 (constImg 8 8 1))
    [{ meta := (fullSizeTileFile 8 8 1 (constImg 8 8 1)).meta, content := none }]
    ⟨8, 8, 1⟩ [⟨⟨0, 8⟩, ⟨0, 8⟩⟩, ⟨⟨0, 8⟩, ⟨0, 8⟩⟩]
    (by rfl) (by rfl)
  simpa using h

/-- C2 counterexample: a perfectly valid first tile followed by a tile whose
ROI metadata is absent.  `readMapFromTiles` raises the configuration error
from the ROI-gathering loop (lines 300-305, outside the `try`/`catch`) and
aborts the whole merge — it does not skip only the offending tile and
accumulate the rest. -/
theorem readMapFromTiles_invalidRoi_aborts :
    readMapFromTiles 8 8 1 1
        [fullSizeTileFile 8 8 1 (constImg 8 8 1),
         { meta := {}, content := some (constImg 8 8 1) }]
      = Except.error MergeError.configError := by
  rfl

/-! ### `getNbDepthValuesFromDepthMap` (C9) -/

theorem sumTileNbDepthValues_ok (tiles : List TileFile)
    (hnb : ∀ f ∈ tiles, 0 ≤ f.meta.nbDepthValues.getD (-1)) :
    ∀ acc : ℤ, sumTileNbDepthValues acc tiles
      = Except.ok (acc + (tiles.map (fun f => f.meta.nbDepthValues.getD (-1))).sum) := by
  induction tiles with
  | nil => intro acc; simp [sumTileNbDepthValues]
  | cons hd tl IH =>
    intro acc
    unfold sumTileNbDepthValues
    rw [if_neg (by have := hnb hd (List.mem_cons_self hd tl); omega)]
    rw [IH (fun f hf => hnb f (List.mem_cons_of_mem hd hf))]
    rw [List.map_cons, List.sum_cons]
    congr 1
    ring

/-- C9: for a tiled depth map (no full-size file) whose tile files all carry
a non-negative `nbDepthValues` metadata entry, `getNbDepthValuesFromDepthMap`
returns one less than the sum of the per-tile counts — its accumulator
starts at -1 — and only when that running total stays negative (all tiles
report 0) does it fall back to reading the merged map and counting the
pixels with depth > 0. -/
theorem getNbDepthValues_tiled_sum_minus_one
    (imageWidth imageHeight scale step : ℤ) (tiles : List TileFile)
    (hnb : ∀ f ∈ tiles, 0 ≤ f.meta.nbDepthValues.getD (-1)) :
    (1 ≤ (tiles.map (fun f => f.meta.nbDepthValues.getD (-1))).sum →
      getNbDepthValuesFromDepthMap imageWidth imageHeight scale step none tiles
        = Except.ok ((tiles.map (fun f => f.meta.nbDepthValues.getD (-1))).sum - 1)) ∧
    ((tiles.map (fun f => f.meta.nbDepthValues.getD (-1))).sum = 0 →
      getNbDepthValuesFromDepthMap imageWidth imageHeight scale step none tiles
        = Except.map countPositive
            (readMapFromTiles imageWidth imageHeight scale step tiles)) := by
  unfold getNbDepthValuesFromDepthMap
  rw [sumTileNbDepthValues_ok tiles hnb (-1)]
  constructor
  · intro hS
    dsimp only
    rw [if_neg (by omega)]
    congr 1
    ring
  · intro hS
    dsimp only
    rw [if_pos (by omega)]
    unfold readDepthMap
    rcases hmerge : readMapFromTiles imageWidth imageHeight scale step tiles with e | m
    · rfl
    · rfl

/-- C9 witness: two tiles reporting 3 and 4 valid depths give 3 + 4 - 1 = 6. -/
theorem getNbDepthValues_tiled_sum_minus_one_witness :
    getNbDepthValuesFromDepthMap 8 8 1 1 none
        [{ meta := { nbDepthValues := some 3 }, content := none },
         { meta := { nbDepthValues := some 4 }, content := none }]
      = Except.ok 6 := by
  have h := (getNbDepthValues_tiled_sum_minus_one 8 8 1 1
    [{ meta := { nbDepthValues := some 3 }, content := none },
     { meta := { nbDepthValues := some 4 }, content := none }]
    (by intro f hf
        rcases List.mem_cons.mp hf with rfl | hf2
        · norm_num
        · rcases List.mem_singleton.mp hf2 with rfl
          norm_num)).1 (by norm_num)
  simpa using h

/-! ### `writeDepthSimMap` statistics metadata (C10) -/

theorem statsFold_mono (depths : List ℚ) :
    ∀ mm : ℚ × ℚ,
      (depths.foldl (fun mm depth =>
        if depth ≤ -1 then mm else (max mm.1 depth, min mm.2 depth)) mm).2 ≤ mm.2 ∧
      mm.1 ≤ (depths.foldl (fun mm depth =>
        if depth ≤ -1 then mm else (max mm.1 depth, min mm.2 depth)) mm).1 := by
  induction depths with
  | nil => intro mm; exact ⟨le_refl _, le_refl _⟩
  | cons hd tl IH =>
    intro mm
    rw [List.foldl_cons]
    by_cases hskip : hd ≤ -1
    · rw [if_pos hskip]
      exact IH mm
    · rw [if_neg hskip]
      have h2 := IH (max mm.1 hd, min mm.2 hd)
      constructor
      · exact le_trans h2.1 (min_le_left _ _)
      · exact le_trans (le_max_left _ _) h2.2

theorem statsFold_bounds (depths : List ℚ) :
    ∀ mm : ℚ × ℚ, ∀ d ∈ depths, -1 < d →
      (depths.foldl (fun mm depth =>
        if depth ≤ -1 then mm else (max mm.1 depth, min mm.2 depth)) mm).2 ≤ d ∧
      d ≤ (depths.foldl (fun mm depth =>
        if depth ≤ -1 then mm else (max mm.1 depth, min mm.2 depth)) mm).1 := by
  induction depths with
  | nil => intro mm d hd; exact absurd hd (List.not_mem_nil d)
  | cons hd tl IH =>
    intro mm d hdmem hdval
    rw [List.foldl_cons]
    rcases List.mem_cons.mp hdmem with rfl | hd2
    · rw [if_neg (by linarith)]
      have h2 := statsFold_mono tl (max mm.1 d, min mm.2 d)
      constructor
      · exact le_trans h2.1 (min_le_right _ _)
      · exact le_trans (le_max_right _ _) h2.2
    · by_cases hskip : hd ≤ -1
      · rw [if_pos hskip]
        exact IH mm d hd2 hdval
      · rw [if_neg hskip]
        exact IH (max mm.1 hd, min mm.2 hd) d hd2 hdval

/-- C10: the statistics metadata of `writeDepthSimMap` ranges over all
pixels with depth strictly greater than -1.0, not only valid ones:
`nbDepthValues` counts exactly the pixels with depth > 0, `minDepth` and
`maxDepth` bound every pixel with depth > -1, and a sentinel depth 0 (an
unset pixel) drags `minDepth` down to at most 0. -/
theorem writeDepthSimMap_depth_stats (depths : List ℚ) :
    (writeDepthSimMapStats depths).1 = depths.countP (fun v => decide (0 < v)) ∧
    (∀ d ∈ depths, -1 < d →
      (writeDepthSimMapStats depths).2.1 ≤ d ∧ d ≤ (writeDepthSimMapStats depths).2.2) ∧
    ((0 : ℚ) ∈ depths → (writeDepthSimMapStats depths).2.1 ≤ 0) := by
  refine ⟨?_, ?_, ?_⟩
  · show ((depths.filter (fun v => decide (0 < v))).length : ℤ) = _
    rw [List.countP_eq_length_filter]
  · intro d hd hdval
    exact statsFold_bounds depths (-1, floatMax) d hd hdval
  · intro h0
    exact (statsFold_bounds depths (-1, floatMax) 0 h0 (by norm_num)).1

/-- C10 witness: the buffer `[0, 5, -2]` has one valid depth, `minDepth ≤ 0`
by the unset pixel, and bounds `min ≤ 5 ≤ max`. -/
theorem writeDepthSimMap_depth_stats_witness :
    (writeDepthSimMapStats [0, 5, -2]).1 = ([0, 5, -2] : List ℚ).countP (fun v => decide (0 < v)) ∧
    ((writeDepthSimMapStats [0, 5, -2]).2.1 ≤ 5 ∧
      (5 : ℚ) ≤ (writeDepthSimMapStats [0, 5, -2]).2.2) ∧
    (writeDepthSimMapStats [0, 5, -2]).2.1 ≤ 0 := by
  have h := writeDepthSimMap_depth_stats [0, 5, -2]
  exact ⟨h.1, h.2.1 5 (by norm_num) (by norm_num), h.2.2 (by norm_num)⟩

/-! ### Similarity volume best / second-best (C5) -/

/-- C5: after folding the costs of all neighbor cameras into a cell of the
similarity volumes, the best cost is at most the second-best cost (stated,
as the spec does, for cells where at least one neighbor defines a cost; the
invariant in fact also holds for the all-sentinel initialization). -/
theorem volume_best_le_secondBest (neighborCosts : List (Option ℚ))
    (hdef : neighborCosts.filterMap id ≠ []) :
    (accumulateBestSecond neighborCosts).1 ≤ (accumulateBestSecond neighborCosts).2 := by
  clear hdef
  unfold accumulateBestSecond
  have hstep : ∀ (l : List ℚ) (bs : ℚ × ℚ), bs.1 ≤ bs.2 →
      (l.foldl volumeUpdate bs).1 ≤ (l.foldl volumeUpdate bs).2 := by
    intro l
    induction l with
    | nil => intro bs h; exact h
    | cons hd tl IH =>
      intro bs h
      rw [List.foldl_cons]
      apply IH
      unfold volumeUpdate
      by_cases h1 : hd < bs.1
      · rw [if_pos h1]
        exact le_of_lt h1
      · rw [if_neg h1]
        by_cases h2 : hd < bs.2
        · rw [if_pos h2]
          exact le_of_not_lt h1
        · rw [if_neg h2]
          exact h
  exact hstep _ (maxSentinelCost, maxSentinelCost) (le_refl _)

/-- C5 witness: three neighbors, one with no valid cost. -/
theorem volume_best_le_secondBest_witness :
    ([some 10, none, some 7] : List (Option ℚ)).filterMap id ≠ [] ∧
    (accumulateBestSecond [some 10, none, some 7]).1
      ≤ (accumulateBestSecond [some 10, none, some 7]).2 :=
  ⟨by simp, volume_best_le_secondBest [some 10, none, some 7] (by simp)⟩

/-! ### Normal-map kernel (C4) -/

/-- C4 (code evaluated at the failing input): pixel (2, 1) has depth 0 and
receives the sentinel normal (-1, -1, -1), as claimed; but the neighbor
sample at (2, 1) — with invalid depth 0 — DOES participate in the PCA
accumulation of pixel (1, 1)'s normal estimate, because the inclusion guard
at line 77 tests the center depth (`depth > 0.0f`, always true there) instead
of the neighbor depth `depthn`, and `|0 - 1| < 30 · pixSize` holds. -/
theorem computeNormalMap_invalid_depth_behavior :
    computeNormalMapPixel straightOracle depthMapWithHole 1 2 1 = sentinelNormal ∧
    depthMapWithHole 2 1 = 0 ∧
    (straightOracle.p3 2 1 0, (1 : ℚ)) ∈ computeNormalSamples straightOracle depthMapWithHole 1 1 1 := by
  refine ⟨?_, rfl, ?_⟩
  · norm_num [computeNormalMapPixel, depthMapWithHole]
  · norm_num [computeNormalSamples, normalWindow, depthMapWithHole, straightOracle,
      List.filterMap, Vec3.sub, List.flatMap, List.range, List.range.loop]

/-! ### Refinement optimization driver (C7) -/

theorem optimizeGDProgram_succ (n : ℕ) :
    optimizeGDProgram (n + 1)
      = optimizeGDProgram n ++ [OptCmd.copyDepthToTmp, OptCmd.adjustStep n] := by
  unfold optimizeGDProgram
  rw [List.range_succ, List.flatMap_append]
  simp

theorem optStep_copyTmp (K : OptKernels) (img : ℤ → ℤ → ℚ)
    (s r : ℤ → ℤ → ℚ × ℚ) (σ : OptState) :
    optStep K img s r σ OptCmd.copyDepthToTmp = { σ with tmp := depthChannel σ.out } := rfl

theorem optStep_adjust (K : OptKernels) (img : ℤ → ℤ → ℚ)
    (s r : ℤ → ℤ → ℚ × ℚ) (σ : OptState) (i : ℕ) :
    optStep K img s r σ (OptCmd.adjustStep i)
      = { σ with out := K.adjust σ.variance σ.tmp σ.out s r i } := rfl

theorem optimizeGradientDescent_run (K : OptKernels) (img : ℤ → ℤ → ℚ)
    (sgmDepthPixSizeMap refineDepthSimMap : ℤ → ℤ → ℚ × ℚ) (σ0 : OptState) :
    ∀ n : ℕ,
      (optimizeGradientDescent K img sgmDepthPixSizeMap refineDepthSimMap n σ0).out
        = optimizedDepthSimRec K img sgmDepthPixSizeMap refineDepthSimMap n ∧
      (optimizeGradientDescent K img sgmDepthPixSizeMap refineDepthSimMap n σ0).variance
        = K.varLofLAB img := by
  intro n
  induction n with
  | zero => exact ⟨rfl, rfl⟩
  | succ k IH =>
    unfold optimizeGradientDescent at IH ⊢
    rw [optimizeGDProgram_succ, List.foldl_append]
    simp only [List.foldl_cons, List.foldl_nil, optStep_copyTmp, optStep_adjust]
    rw [IH.1, IH.2]
    exact ⟨rfl, rfl⟩

/-- C7: the refinement optimization driver first initializes the optimized
depth/sim map from the SGM depth/pixSize map, then runs exactly
`optimizationNbIterations` iterations (the modelled default is 100), each
iteration copying the current optimized depths into the temporary map and
then performing one adjustment step that feeds the image-variance field, the
copied depths, the SGM/pixSize prior, the refine depth/sim estimate and the
iteration index to the adjustment kernel. -/
theorem optimizeGradientDescent_structure (K : OptKernels) (img : ℤ → ℤ → ℚ)
    (sgmDepthPixSizeMap refineDepthSimMap : ℤ → ℤ → ℚ × ℚ) (n : ℕ) (σ0 : OptState) :
    (optimizeGradientDescent K img sgmDepthPixSizeMap refineDepthSimMap n σ0).out
      = optimizedDepthSimRec K img sgmDepthPixSizeMap refineDepthSimMap n ∧
    ((optimizeGDProgram n).filter OptCmd.isAdjustStep).length = n ∧
    optimizationNbIterationsDefault = 100 := by
  refine ⟨(optimizeGradientDescent_run K img sgmDepthPixSizeMap refineDepthSimMap σ0 n).1,
    ?_, rfl⟩
  unfold optimizeGDProgram
  simp only [List.filter_cons]
  show (((List.range n).flatMap fun i =>
    [OptCmd.copyDepthToTmp, OptCmd.adjustStep i]).filter OptCmd.isAdjustStep).length = n
  induction n with
  | zero => rfl
  | succ k IH =>
    rw [List.range_succ, List.flatMap_append, List.filter_append, List.length_append, IH]
    rfl

end AV
